import Mathlib

/-!
Verification of the rootpy histogram wrapper (`rootpy/plotting/hist.py`) and
the user-data helper (`rootpy/userdata.py`).

The repository is a thin Python layer over the external ROOT histogram
library.  We embed the wrapper's own logic faithfully and model the wrapped
library's primitives (bin storage, `GetBinContent`, `FindBin`, clamping of
bin indices, the `fSumw2` array, `ComputeIntegral`) with their documented
ROOT semantics, over exact rationals instead of floating point.

Conventions of the embedding:
* Histograms are modelled in one dimension (class `_Hist` / `TH1`): `edges`
  is the list of the `nbins + 1` axis bin edges (the sequence produced by
  `_HistBase._edges(axis)`), `contents` and `sumw2` are the flat cell
  arrays of length `nbins + 2` (index 0 = underflow, `nbins + 1` =
  overflow).  Bin errors are tracked by their squares, i.e. by the `fSumw2`
  array that the wrapper reads and writes through `GetBinError` /
  `SetBinError` / `GetSumw2`; this is a monotone renaming that avoids
  square roots.  Histograms are modelled with weights stored
  (`GetSumw2N() > 0`), the configuration under which `merge_bins` is
  usable at all.
* Python exceptions become an `Except PyErr` result.
* Python object mutation is modelled by an explicit object store
  (`Store := List Hist1`); a method that mutates its receiver returns an
  updated store, a method that returns a fresh object appends to the store.
-/

set_option linter.unusedVariables false

deriving instance DecidableEq for Except

namespace Rootpy

/-- Python exception kinds raised (or returned!) by the embedded code. -/
inductive PyErr where
  | valueError
  | typeError
  | indexError
  | assertionError
  | zeroDivisionError
  | attributeError
  deriving DecidableEq, Repr

/-- Strict ascending order of a list of rationals, as an executable
check. -/
def isSortedStrict : List ℚ → Bool
  | [] => true
  | [_] => true
  | a :: b :: l => decide (a < b) && isSortedStrict (b :: l)

/-- The 1-dimensional histogram state owned by the wrapped library (TH1):
axis bin edges, flat cell contents, the `fSumw2` array of squared bin
errors, and the entry count. -/
structure Hist1 where
  edges : List ℚ
  contents : List ℚ
  sumw2 : List ℚ
  entries : ℚ
  deriving DecidableEq, Repr

instance : Inhabited Hist1 := ⟨⟨[], [], [], 0⟩⟩

namespace Hist1

/-- `GetNbinsX`: the number of in-range bins, one less than the number of
axis edges. -/
def nbins (h : Hist1) : ℕ := h.edges.length - 1

/-- `GetSize` / `fNcells` for a 1-dimensional histogram: in-range bins plus
underflow and overflow. -/
def sizeH (h : Hist1) : ℕ := h.nbins + 2

/-- `TH1.GetBin(binx)`: ROOT clamps the x bin index into
`[0, nbins + 1]`. -/
def getBin (h : Hist1) (i : ℤ) : ℕ :=
  if i < 0 then 0
  else if (h.nbins + 1 : ℤ) < i then h.nbins + 1
  else i.toNat

/-- `TH1.GetBinContent`: ROOT clamps the cell index into range before
reading (both the one-argument form and the `(binx, biny, binz)` form,
which goes through `GetBin`, clamp identically for a 1-dimensional
histogram). -/
def GetBinContent (h : Hist1) (i : ℤ) : ℚ :=
  h.contents.getD (h.getBin i) 0

/-- `TH1.SetBinContent(bin, content)`, the flat-index form: out-of-range
indices are ignored. -/
def SetBinContent1 (h : Hist1) (i : ℤ) (v : ℚ) : Hist1 :=
  if 0 ≤ i ∧ i < (h.sizeH : ℤ) then
    { h with contents := h.contents.set i.toNat v }
  else h

/-- `TH1.SetBinContent(binx, biny, binz, content)`: the per-axis form goes
through `GetBin`, so the x index is clamped into range. -/
def SetBinContent3 (h : Hist1) (i : ℤ) (v : ℚ) : Hist1 :=
  { h with contents := h.contents.set (h.getBin i) v }

/-- `TH1.GetBinError` with weights stored reads the `fSumw2` cell (here the
squared error itself, see the file comment); the index is clamped like
`GetBinContent`. -/
def GetBinError (h : Hist1) (i : ℤ) : ℚ :=
  h.sumw2.getD (h.getBin i) 0

/-- `TH1.SetBinError`: writes the `fSumw2` cell; out-of-range indices are
ignored. -/
def SetBinError (h : Hist1) (i : ℤ) (e : ℚ) : Hist1 :=
  if 0 ≤ i ∧ i < (h.sizeH : ℤ) then
    { h with sumw2 := h.sumw2.set i.toNat e }
  else h

/-- `TAxis.GetBinCenter`: the middle of an in-range bin; for the underflow
and overflow "bins" ROOT extrapolates by half the width of the nearest
in-range bin. -/
def GetBinCenter (h : Hist1) (i : ℕ) : ℚ :=
  if i = 0 then
    h.edges.getD 0 0 - (h.edges.getD 1 0 - h.edges.getD 0 0) / 2
  else if i ≤ h.nbins then
    (h.edges.getD (i - 1) 0 + h.edges.getD i 0) / 2
  else
    h.edges.getD h.nbins 0 +
      (h.edges.getD h.nbins 0 - h.edges.getD (h.nbins - 1) 0) / 2

/-- `TH1.GetBinLowEdge` (equivalently `TAxis.GetBinLowEdge`): for
`1 ≤ i ≤ nbins + 1` this is edge `i - 1`; beyond that ROOT extrapolates
linearly past the last edge. -/
def GetBinLowEdge (h : Hist1) (i : ℕ) : ℚ :=
  if 1 ≤ i ∧ i ≤ h.nbins + 1 then h.edges.getD (i - 1) 0
  else if i = 0 then
    h.edges.getD 0 0 - (h.edges.getD 1 0 - h.edges.getD 0 0)
  else
    h.edges.getD h.nbins 0 + (h.edges.getD h.nbins 0 - h.edges.getD (h.nbins - 1) 0)

/-- `TH1.GetBinWidth` of an in-range bin. -/
def GetBinWidth (h : Hist1) (i : ℕ) : ℚ :=
  h.edges.getD i 0 - h.edges.getD (i - 1) 0

/-- `TAxis.FindBin x`: 0 when `x` is below the first edge, `nbins + 1` when
`x` is at or above the last edge, otherwise the bin `[e i, e i.succ)`
containing `x`.  With ascending edges this is the number of edges that are
`≤ x`. -/
def FindBin (h : Hist1) (x : ℚ) : ℕ :=
  h.edges.countP (fun e => decide (e ≤ x))

/-- `_HistBase.get_sum_w2` of `hist.py`, specialised to one dimension
(`y = z = 0`): asserts that the cell index is in range, then reads the
`fSumw2` array. -/
def get_sum_w2 (h : Hist1) (x : ℤ) : Except PyErr ℚ :=
  if 0 ≤ x ∧ x < (h.sizeH : ℤ) then .ok (h.sumw2.getD x.toNat 0)
  else .error .assertionError

/-- `_HistBase.set_sum_w2` of `hist.py`, specialised to one dimension:
asserts that the cell index is in range, then writes the `fSumw2` array. -/
def set_sum_w2 (h : Hist1) (w : ℚ) (x : ℤ) : Except PyErr Hist1 :=
  if 0 ≤ x ∧ x < (h.sizeH : ℤ) then .ok { h with sumw2 := h.sumw2.set x.toNat w }
  else .error .assertionError

/-- `_HistBase.nbins(axis)` for a 1-dimensional histogram: `GetNbinsX`,
`GetNbinsY`, `GetNbinsZ` for axes 0, 1, 2 (ROOT reports 1 bin on the
unused axes of a TH1), `ValueError` otherwise. -/
def nbinsAxis (h : Hist1) (axis : ℤ) : Except PyErr ℕ :=
  if axis = 0 then .ok h.nbins
  else if axis = 1 then .ok 1
  else if axis = 2 then .ok 1
  else .error .valueError

/-- Well-formedness of the modelled histogram state: at least two strictly
ascending edges and cell arrays of the size ROOT allocates. -/
def Wf (h : Hist1) : Prop :=
  2 ≤ h.edges.length ∧ isSortedStrict h.edges = true ∧
    h.contents.length = h.sizeH ∧ h.sumw2.length = h.sizeH

instance (h : Hist1) : Decidable h.Wf :=
  inferInstanceAs (Decidable (2 ≤ h.edges.length ∧ isSortedStrict h.edges = true ∧
    h.contents.length = h.sizeH ∧ h.sumw2.length = h.sizeH))

end Hist1

/-! ### Constructor argument parsing (`_HistBase._parse_args`) -/

/-- A positional constructor argument as dispatched by `_parse_args`: an
iterable of edges, a Python `int`, another basic numeric type (`float`),
or anything else. -/
inductive Arg where
  | iter (l : List ℚ)
  | intArg (n : ℤ)
  | floatArg (q : ℚ)
  | other
  deriving DecidableEq, Repr

/-- The per-axis dictionary `_parse_args` fills in: explicit `bins` edges
or a `(nbins, low, high)` triple. -/
structure AxisParams where
  bins : Option (List ℚ)
  nbins : ℤ
  low : Option ℚ
  high : Option ℚ
  deriving DecidableEq, Repr

/-- The check `list(sorted(args[0])) == list(args[0])`: the edges are
non-decreasing. -/
def isSortedAsc : List ℚ → Bool
  | [] => true
  | [_] => true
  | a :: b :: l => decide (a ≤ b) && isSortedAsc (b :: l)

/-- The check `len(set(args[0])) != len(args[0])`: some edge is
repeated. -/
def hasDup (l : List ℚ) : Bool :=
  decide (l.dedup.length ≠ l.length)

/-- `isbasictype` of `rootpy.base`: `int`, `float` and `long` are the basic
numeric types; returns the numeric value when the argument has one. -/
def isbasic : Arg → Option ℚ
  | .intArg n => some (n : ℚ)
  | .floatArg q => some q
  | _ => none

/-- One iteration of the per-axis loop in `_HistBase._parse_args`
(`hist.py` lines 124-164), consuming the arguments of `d` axes.  Returns
the filled parameter dictionaries together with the arguments left
over. -/
def parseAxes : ℕ → List Arg → Except PyErr (List AxisParams × List Arg)
  | 0, args => .ok ([], args)
  | _ + 1, [] => .error .typeError
  | d + 1, a :: rest =>
    match a with
    | .iter l =>
      if ¬ isSortedAsc l then .error .valueError
      else if hasDup l then .error .valueError
      else do
        let (ps, args') ← parseAxes d rest
        .ok (⟨some l, (l.length : ℤ) - 1, none, none⟩ :: ps, args')
    | a =>
      if 3 ≤ rest.length + 1 then
        match a with
        | .intArg n =>
          if n < 1 then .error .valueError
          else
            match isbasic (rest.getD 0 .other) with
            | none => .error .typeError
            | some lo =>
              match isbasic (rest.getD 1 .other) with
              | none => .error .typeError
              | some hi =>
                if hi ≤ lo then .error .valueError
                else do
                  let (ps, args') ← parseAxes d (rest.drop 2)
                  .ok (⟨none, n, some lo, some hi⟩ :: ps, args')
        | _ => .error .typeError
      else .error .typeError

/-- `_HistBase._parse_args(args)` (with `ignore_extras=False`) for a
`d`-dimensional histogram class: parse one parameter set per axis and
reject leftover arguments. -/
def parse_args (d : ℕ) (args : List Arg) : Except PyErr (List AxisParams) := do
  let (ps, rest) ← parseAxes d args
  if rest.isEmpty then .ok ps else .error .typeError

/-- Construction of a fresh 1-dimensional histogram from explicit bin
edges (`Hist(edges)`): `_parse_args` validates the edges, then the wrapped
library allocates zeroed cell arrays of size `nbins + 2`.  rootpy
histograms store weights, so the `fSumw2` array is allocated as well. -/
def hist1_template (edges : List ℚ) : Hist1 :=
  { edges := edges
    contents := List.replicate (edges.length - 1 + 2) 0
    sumw2 := List.replicate (edges.length - 1 + 2) 0
    entries := 0 }

def hist1_new (edges : List ℚ) : Except PyErr Hist1 := do
  let _ ← parse_args 1 [.iter edges]
  .ok (hist1_template edges)

/-! ### Bin-range merging (`_HistBase.merge_bins`, `hist.py` lines 743-868) -/

/-- One bound of `slice(l, r).indices(n)` for step 1: negative values count
from the end, and the result is clamped into `[0, n]`. -/
def sliceClamp (v : ℤ) (n : ℕ) : ℕ :=
  if v < 0 then ((n : ℤ) + v).toNat else min v.toNat n

/-- `range(*slice(l, r).indices(axis_bins))`: the run of indices selected
by the slice `l:r` of a sequence of length `n`. -/
def sliceIndices (l r : ℤ) (n : ℕ) : List ℕ :=
  List.range' (sliceClamp l n) (sliceClamp r n - sliceClamp l n)

/-- The window-collection loop of `merge_bins` (`hist.py` lines 779-797):
each bin range must be a pair `(l, r)` of distinct indices, not mixing a
negative left with a non-negative right; `r = -1` means "through the last
cell", otherwise the right bound is inclusive; empty resolved windows are
dropped. -/
def makeWindows (axis_bins : ℕ) : List (List ℤ) → Except PyErr (List (List ℕ))
  | [] => .ok []
  | w :: ws =>
    match w with
    | [l, r] =>
      if l = r then .error .valueError
      else if l < 0 ∧ 0 ≤ r then .error .valueError
      else
        let r' : ℤ := if r = -1 then (axis_bins : ℤ) else r + 1
        let idx := sliceIndices l r' axis_bins
        do
          let rest ← makeWindows axis_bins ws
          .ok (if idx.isEmpty then rest else idx :: rest)
    | _ => .error .valueError

/-- The overlap test of `merge_bins` (lines 804-807): the concatenation of
all windows repeats an index. -/
def windowsOverlap (ws : List (List ℕ)) : Bool :=
  decide ((ws.flatten).dedup.length ≠ (ws.flatten).length)

/-- Lexicographic comparison of windows, the order used by Python's
`windows.sort()`. -/
def lexLe : List ℕ → List ℕ → Bool
  | [], _ => true
  | _ :: _, [] => false
  | a :: as, b :: bs => if a < b then true else if b < a then false else lexLe as bs

/-- The mapping-construction loop of `merge_bins` (lines 810-822): walking
the sorted windows it assigns every index of a window the window's new
index `window[0] - offset or 1`, records the window's left index
`window[0] or 1`, and accumulates the running `offset` of removed bins
(one less when the window starts at the underflow cell). -/
def buildMapping : List (List ℕ) → ℤ → List (ℕ × ℤ) × List ℕ × ℤ
  | [], off => ([], [], off)
  | w :: ws, off =>
    let a := w.headD 0
    let newIdx : ℤ := if (a : ℤ) - off = 0 then 1 else (a : ℤ) - off
    let leftKey : ℕ := if a = 0 then 1 else a
    let off1 : ℤ := off + (w.length : ℤ) - 1 - (if a = 0 then 1 else 0)
    let (m, lk, offF) := buildMapping ws off1
    (w.map (fun i => (i, newIdx)) ++ m, leftKey :: lk, offF)

/-- The edge-selection condition of `merge_bins` (lines 827-832): edge `i`
is dropped when it is interior to a merged window (its right neighbour
cell is merged but is not a window's left cell) and is not the last
edge. -/
def keepEdge (mapping : List (ℕ × ℤ)) (leftKeys : List ℕ) (nbins i : ℕ) : Bool :=
  ¬ (i ≠ nbins ∧ (mapping.lookup (i + 1)).isSome ∧ i + 1 ∉ leftKeys)

/-- The new edge list built by `merge_bins` from the old edges and the
old-to-new mapping. -/
def mergeNewEdges (edges : List ℚ) (mapping : List (ℕ × ℤ)) (leftKeys : List ℕ) :
    List ℚ :=
  ((edges.enum).filter (fun p => keepEdge mapping leftKeys (edges.length - 1) p.1)).map
    Prod.snd

/-- `translate` of `merge_bins` (lines 840-846): mapped cells follow the
mapping, the underflow cell stays put, and any other cell is placed by
`FindBin` at its old centre. -/
def mergeTranslate (mapping : List (ℕ × ℤ)) (old new : Hist1) (idx : ℕ) : ℤ :=
  match mapping.lookup idx with
  | some v => v
  | none =>
    if idx = 0 then 0
    else (new.FindBin (old.GetBinCenter idx) : ℤ)

/-- The fill loop of `merge_bins` (lines 848-860) over the listed old cell
indices: add the old content into the translated cell (the per-axis
`SetBinContent` clamps), then transfer the `fSumw2` weight through
`get_sum_w2` / `set_sum_w2`, whose assertions fail when the translated
index is out of range. -/
def mergeFill (h : Hist1) (tr : ℕ → ℤ) : Hist1 → List ℕ → Except PyErr Hist1
  | nh, [] => .ok nh
  | nh, i :: is => do
    let t := tr i
    let nh1 := nh.SetBinContent3 t (nh.GetBinContent t + h.GetBinContent (i : ℤ))
    let w2old ← h.get_sum_w2 (i : ℤ)
    let w2new ← nh1.get_sum_w2 t
    let nh2 ← nh1.set_sum_w2 (w2old + w2new) t
    mergeFill h tr nh2 is

/-- `_HistBase.merge_bins(bin_ranges, axis)` for a 1-dimensional histogram
(`ndim = 1`): validate the axis, resolve the windows, return a clone when
nothing merges, reject overlapping windows, then build the merged
histogram and fill it, finally transferring the entry count. -/
def merge_bins (h : Hist1) (bin_ranges : List (List ℤ)) (axis : ℤ) :
    Except PyErr Hist1 :=
  if 0 < axis then .error .valueError
  else do
    let nb ← h.nbinsAxis axis
    let axis_bins := nb + 2
    let windows ← makeWindows axis_bins bin_ranges
    if windows.isEmpty then .ok h
    else if 1 < windows.length ∧ windowsOverlap windows then .error .valueError
    else
      let ws := windows.mergeSort lexLe
      let (mapping, leftKeys, _) := buildMapping ws 0
      let nedges := mergeNewEdges h.edges mapping leftKeys
      do
        let nh0 ← hist1_new nedges
        let nh ← mergeFill h (mergeTranslate mapping h nh0) nh0 (List.range h.sizeH)
        .ok { nh with entries := h.entries }

/-- The old-to-new index mapping `merge_bins` constructs from the resolved
windows (after sorting them, as the code does). -/
def mergeMapping (ws : List (List ℕ)) : List (ℕ × ℤ) :=
  (buildMapping (ws.mergeSort lexLe) 0).1

/-- The zeroed merged histogram `merge_bins` builds from the kept edges. -/
def mergeTemplate (h : Hist1) (ws : List (List ℕ)) : Hist1 :=
  hist1_template (mergeNewEdges h.edges (mergeMapping ws)
    (buildMapping (ws.mergeSort lexLe) 0).2.1)

/-- The new cell an old cell's content lands in: `translate` followed by
the clamping `GetBin` of the per-axis `SetBinContent`. -/
def mergeDest (h : Hist1) (ws : List (List ℕ)) (i : ℕ) : ℕ :=
  (mergeTemplate h ws).getBin
    (mergeTranslate (mergeMapping ws) h (mergeTemplate h ws) i)

/-! ### Axis rebinning (`_HistBase.rebinned`, `hist.py` lines 870-956) -/

/-- The `bins` argument of `rebinned` as dispatched by its
`isinstance` / `hasattr` checks. -/
inductive BinsArg where
  | intArg (n : ℤ)
  | tup (t : List ℤ)
  | iter (l : List ℚ)
  | other
  deriving DecidableEq, Repr

/-- The result of `rebinned`: the integer / tuple path delegates entirely
to the wrapped library's `Rebin`, which is not modelled; the iterable path
builds the histogram in the wrapper. -/
inductive RebinResult where
  | externalRebin
  | hist (h : Hist1)
  deriving DecidableEq, Repr

/-- `_HistBase.new_binning_template(binning, axis)` for a 1-dimensional
histogram: rejects an out-of-range axis, then constructs a fresh histogram
whose axis uses `binning` when `axis` selects it and the old edges
otherwise. -/
def new_binning_template (h : Hist1) (binning : List ℚ) (axis : ℤ) :
    Except PyErr Hist1 :=
  if 0 < axis then .error .valueError
  else hist1_new (if axis = 0 then binning else h.edges)

/-- The fill loop of the iterable path of `rebinned` (lines 942-951) over
the in-range cells `x = 1 .. nbins`: the old content is added at
`FindBin` of the old bin centre (flat-index `SetBinContent`, always in
range here), and the `fSumw2` cell is accumulated alongside. -/
def rebinFill (h : Hist1) : Hist1 → List ℕ → Hist1
  | nh, [] => nh
  | nh, x :: xs =>
    let newbin : ℕ := nh.FindBin (h.GetBinCenter x)
    let idx : ℕ := h.getBin (x : ℤ)
    let nh1 := nh.SetBinContent1 (newbin : ℤ)
      (nh.GetBinContent (newbin : ℤ) + h.contents.getD idx 0)
    let nh2 := { nh1 with
      sumw2 := nh1.sumw2.set newbin
        (nh1.sumw2.getD newbin 0 + h.sumw2.getD idx 0) }
    rebinFill h nh2 xs

/-- `_HistBase.rebinned(bins, axis)` for a 1-dimensional histogram: reject
`axis >= ndim`; an integer is turned into a one-element tuple (a negative
`axis` of `-1` indexes `_bins[-1]` in Python, further negative values
raise `IndexError`, re-raised as `ValueError`); a tuple goes to the
library's `Rebin`; any other iterable defines the new edges, filled in the
wrapper; anything else is a `TypeError`. -/
def rebinned (h : Hist1) (bins : BinsArg) (axis : ℤ) : Except PyErr RebinResult :=
  if 1 ≤ axis then .error .valueError
  else
    match bins with
    | .intArg n =>
      if axis = 0 ∨ axis = -1 then
        if ([n] : List ℤ).length ≠ 1 then .error .valueError else .ok .externalRebin
      else .error .valueError
    | .tup t =>
      if t.length ≠ 1 then .error .valueError else .ok .externalRebin
    | .iter l => do
      let nh0 ← new_binning_template h l axis
      let nh := rebinFill h nh0 (List.range' 1 h.nbins)
      .ok (.hist { nh with entries := h.entries })
    | .other => .error .typeError

/-! ### Quantiles (`_Hist.quantiles`, `hist.py` lines 1257-1347) -/

/-- `list(set(l))` followed by `l.sort()`: the distinct elements in
ascending order. -/
def sortDedup (l : List ℚ) : List ℚ :=
  (l.dedup).mergeSort (fun a b => decide (a ≤ b))

/-- The unnormalised cumulative integral computed by ROOT
`ComputeIntegral`: the running sum of the in-range bin contents, starting
at 0. -/
def rawIntegral (h : Hist1) : List ℚ :=
  (List.range' 1 h.nbins).scanl (fun acc (i : ℕ) => acc + h.GetBinContent (i : ℤ)) 0

/-- The total in-range content, the normalisation constant of
`ComputeIntegral`. -/
def integralTotal (h : Hist1) : ℚ :=
  (rawIntegral h).getD h.nbins 0

/-- `TH1.GetIntegral` (ROOT `ComputeIntegral`): the cumulative integral
normalised by the total, with the entry count stored in the extra last
cell.  (ROOT leaves the array unnormalised — and the last cell
uninitialised — when the total is zero; the rational division by zero
below likewise returns an unnormalised all-zero prefix in that case.) -/
def GetIntegral (h : Hist1) : List ℚ :=
  (rawIntegral h).map (· / integralTotal h) ++ [h.entries]

/-- The inner `while` loop of the strict quantile search (lines
1334-1336): advance `ibin` while the cumulative integral is below the
requested quantile and `ibin` has not passed `nbins`.  The fuel is an
upper bound on the remaining iterations; `nbins + 2` always suffices. -/
def qAdvance (integral : List ℚ) (nb1 : ℕ) (quant : ℚ) : ℕ → ℕ → ℕ
  | 0, ibin => ibin
  | fuel + 1, ibin =>
    if integral.getD ibin 0 < quant ∧ ibin < nb1 then
      qAdvance integral nb1 quant fuel (ibin + 1)
    else ibin

/-- The outer loop of the strict quantile search (lines 1333-1340): for
each requested quantile (in ascending order, `ibin` carried over) append
the low edge of the first bin whose cumulative integral reaches it,
stopping early once `ibin` passes `nbins`. -/
def qLoop (h : Hist1) (integral : List ℚ) : List ℚ → ℕ → List ℚ
  | [], _ => []
  | quant :: qs, ibin =>
    let ibin2 := qAdvance integral (h.nbins + 1) quant (h.nbins + 2) ibin
    let edge := h.GetBinLowEdge (ibin2 + 1)
    edge :: (if h.nbins + 1 ≤ ibin2 then [] else qLoop h integral qs ibin2)

/-- `_Hist.quantiles(quantiles, strict=True)` with a list argument, the
pure-Python branch: deduplicate and sort the requested quantiles, walk the
cumulative integral collecting bin low edges, and return the distinct
collected edges in ascending order. -/
def quantiles_strict (h : Hist1) (qs : List ℚ) : List ℚ :=
  sortDedup (qLoop h (GetIntegral h) (sortDedup qs) 0)

/-! ### Indexing (`_HistBase.__getitem__` / `_range_check`, lines 228-260)

Indexing only consults the histogram's shape, so it is modelled for all
three dimensions over the cell-grid geometry of TH1/TH2/TH3. -/

/-- The shape of a ROOT histogram: its dimension and per-axis in-range bin
counts (ROOT reports 1 bin on the unused axes). -/
structure HistShape where
  dim : ℕ
  nx : ℕ
  ny : ℕ
  nz : ℕ
  deriving DecidableEq, Repr

namespace HistShape

/-- `nbins(axis)` on the shape (`GetNbinsX` / `Y` / `Z`). -/
def nbinsAx (s : HistShape) (axis : ℕ) : ℕ :=
  if axis = 0 then s.nx else if axis = 1 then s.ny else s.nz

/-- `GetSize` / `fNcells`: the number of cells including underflow and
overflow along every real axis. -/
def sizeS (s : HistShape) : ℕ :=
  if s.dim = 1 then s.nx + 2
  else if s.dim = 2 then (s.nx + 2) * (s.ny + 2)
  else (s.nx + 2) * (s.ny + 2) * (s.nz + 2)

/-- `TH1.GetBin(binx, biny, binz)`: each per-axis index is clamped into
`[0, nbins + 1]` and the flat cell index is computed row-major. -/
def GetBin (s : HistShape) (ix iy iz : ℤ) : ℕ :=
  let cl : ℤ → ℕ → ℕ := fun v n =>
    if v < 0 then 0 else if (n + 1 : ℤ) < v then n + 1 else v.toNat
  let bx := cl ix s.nx
  if s.dim = 1 then bx
  else
    let by_ := cl iy s.ny
    if s.dim = 2 then bx + (s.nx + 2) * by_
    else
      let bz := cl iz s.nz
      bx + (s.nx + 2) * (by_ + (s.ny + 2) * bz)

/-- `_HistBase._range_check(index, axis)`: a global cell index must lie in
`[0, GetSize)`, a per-axis index in `[0, nbins(axis) + 2)`. -/
def range_check (s : HistShape) (index : ℤ) (axis : Option ℕ) : Except PyErr Unit :=
  match axis with
  | none =>
    if 0 ≤ index ∧ index < (s.sizeS : ℤ) then .ok () else .error .indexError
  | some ax =>
    if 0 ≤ index ∧ index < (s.nbinsAx ax + 2 : ℤ) then .ok () else .error .indexError

end HistShape

/-- An index accepted by `__getitem__` (slices aside): a single integer or
a tuple of two or three integers. -/
inductive IdxArg where
  | int (i : ℤ)
  | tup2 (i j : ℤ)
  | tup3 (i j k : ℤ)
  deriving DecidableEq, Repr

/-- `_HistBase.__getitem__(index)` reduced to the global cell index of the
`BinProxy` it returns: an integer index is range-checked globally; a tuple
index on a 2- or 3-dimensional histogram is range-checked per axis and
converted with `GetBin`; tuple unpacking fails with `ValueError` when the
tuple length does not match the dimension. -/
def getitem (s : HistShape) (index : IdxArg) : Except PyErr ℕ :=
  match index with
  | .int i => do
    let _ ← s.range_check i none
    .ok (i.toNat)
  | .tup2 i j =>
    if s.dim = 2 then do
      let _ ← s.range_check i (some 0)
      let _ ← s.range_check j (some 1)
      .ok (s.GetBin i j 0)
    else if s.dim = 3 then .error .valueError
    else .ok (s.GetBin 0 0 0)
  | .tup3 i j k =>
    if s.dim = 2 then .error .valueError
    else if s.dim = 3 then do
      let _ ← s.range_check i (some 0)
      let _ ← s.range_check j (some 1)
      let _ ← s.range_check k (some 2)
      .ok (s.GetBin i j k)
    else .ok (s.GetBin 0 0 0)

/-! ### Arithmetic operators (`hist.py` lines 576-657) and the object
store -/

/-- The right operand of the histogram arithmetic operators, with any
histogram operand already resolved to its state. -/
inductive Operand where
  | scalar (v : ℚ)
  | lst (t : List ℚ)
  | histOp (g : Hist1)
  deriving DecidableEq, Repr

namespace Hist1

/-- `TH1.Fill(x, w)`: adds weight `w` (squared into `fSumw2`) to the bin
containing `x` and bumps the entry count. -/
def Fill (h : Hist1) (x w : ℚ) : Hist1 :=
  let b := h.FindBin x
  { h with
    contents := h.contents.set b (h.contents.getD b 0 + w)
    sumw2 := h.sumw2.set b (h.sumw2.getD b 0 + w * w)
    entries := h.entries + 1 }

/-- `TH1.Add(other, c1)`: cell-wise `content + c1 * other`, `fSumw2`
accumulated with `c1 ^ 2`, entry counts added. -/
def Add (h g : Hist1) (c1 : ℚ) : Hist1 :=
  { h with
    contents := (List.range h.contents.length).map
      (fun i => h.contents.getD i 0 + c1 * g.contents.getD i 0)
    sumw2 := (List.range h.sumw2.length).map
      (fun i => h.sumw2.getD i 0 + c1 * c1 * g.sumw2.getD i 0)
    entries := h.entries + g.entries }

/-- `TH1.Scale(c)`: contents scaled by `c`, squared errors by `c ^ 2`,
entries kept. -/
def Scale (h : Hist1) (c : ℚ) : Hist1 :=
  { h with
    contents := h.contents.map (c * ·)
    sumw2 := h.sumw2.map (c * c * ·) }

/-- `TH1.Multiply(other)`: cell-wise product, with the usual error
propagation on `fSumw2`. -/
def Multiply (h g : Hist1) : Hist1 :=
  { h with
    contents := (List.range h.contents.length).map
      (fun i => h.contents.getD i 0 * g.contents.getD i 0)
    sumw2 := (List.range h.sumw2.length).map
      (fun i => g.contents.getD i 0 ^ 2 * h.sumw2.getD i 0 +
        h.contents.getD i 0 ^ 2 * g.sumw2.getD i 0) }

/-- `TH1.Divide(other)`: cell-wise quotient, zero where the denominator
bin is zero, with the usual error propagation on `fSumw2`. -/
def Divide (h g : Hist1) : Hist1 :=
  { h with
    contents := (List.range h.contents.length).map
      (fun i => if g.contents.getD i 0 = 0 then 0
        else h.contents.getD i 0 / g.contents.getD i 0)
    sumw2 := (List.range h.sumw2.length).map
      (fun i => if g.contents.getD i 0 = 0 then 0
        else (h.sumw2.getD i 0 * g.contents.getD i 0 ^ 2 +
          g.sumw2.getD i 0 * h.contents.getD i 0 ^ 2) / g.contents.getD i 0 ^ 4) }

end Hist1

/-- `_HistBase.__iadd__` for a 1-dimensional histogram: a basic type is
`Fill`ed, a list or tuple is `Fill`ed with an optional trailing weight,
and a histogram is `Add`ed. -/
def iaddH (h : Hist1) (o : Operand) : Except PyErr Hist1 :=
  match o with
  | .scalar v => .ok (h.Fill v 1)
  | .lst t =>
    match t with
    | [x] => .ok (h.Fill x 1)
    | [x, w] => .ok (h.Fill x w)
    | _ => .error .valueError
  | .histOp g => .ok (h.Add g 1)

/-- `_HistBase.__isub__` for a 1-dimensional histogram: like `__iadd__`
with the weight negated. -/
def isubH (h : Hist1) (o : Operand) : Except PyErr Hist1 :=
  match o with
  | .scalar v => .ok (h.Fill v (-1))
  | .lst t =>
    match t with
    | [x] => .ok (h.Fill x (-1))
    | [x, w] => .ok (h.Fill x (-w))
    | _ => .error .valueError
  | .histOp g => .ok (h.Add g (-1))

/-- `_HistBase.__imul__`: scale by a basic type, `Multiply` by a
histogram. -/
def imulH (h : Hist1) (o : Operand) : Except PyErr Hist1 :=
  match o with
  | .scalar v => .ok (h.Scale v)
  | .histOp g => .ok (h.Multiply g)
  | .lst _ => .error .typeError

/-- `_HistBase.__idiv__`: a zero scalar raises `ZeroDivisionError` before
anything is touched; otherwise scale by the reciprocal, or `Divide` by a
histogram. -/
def idivH (h : Hist1) (o : Operand) : Except PyErr Hist1 :=
  match o with
  | .scalar v => if v = 0 then .error .zeroDivisionError else .ok (h.Scale (1 / v))
  | .histOp g => .ok (h.Divide g)
  | .lst _ => .error .typeError

/-- The Python object heap restricted to the histograms in play; an object
reference is an index into it. -/
abbrev Store := List Hist1

/-- Dereference an object: the histogram state stored at `r`. -/
def Store.getH (s : Store) (r : ℕ) : Hist1 := s.getD r default

/-- The non-mutating binary operators `__add__` / `__sub__` / `__mul__` /
`__div__` on the store: `Clone` the receiver into a fresh object, apply
the matching in-place operation to the clone, and return its reference. -/
def binOpStore (op : Hist1 → Operand → Except PyErr Hist1)
    (s : Store) (r : ℕ) (o : Operand) : Except PyErr (Store × ℕ) := do
  let h' ← op (s.getH r) o
  .ok (s ++ [h'], s.length)

/-- The in-place operators `__iadd__` / ... on the store: the receiver's
own state is replaced. -/
def inPlaceStore (op : Hist1 → Operand → Except PyErr Hist1)
    (s : Store) (r : ℕ) (o : Operand) : Except PyErr Store := do
  let h' ← op (s.getH r) o
  .ok (s.set r h')

/-- `merge_bins` as invoked on the store: the result is a fresh object and
the receiver is only read. -/
def merge_bins_store (s : Store) (r : ℕ) (bin_ranges : List (List ℤ)) (axis : ℤ) :
    Except PyErr (Store × ℕ) := do
  let nh ← merge_bins (s.getH r) bin_ranges axis
  .ok (s ++ [nh], s.length)

/-- The iterable path of `rebinned` as invoked on the store: the result is
a fresh object and the receiver is only read. -/
def rebinned_store (s : Store) (r : ℕ) (bins : BinsArg) (axis : ℤ) :
    Except PyErr (Store × Option ℕ) := do
  let res ← rebinned (s.getH r) bins axis
  match res with
  | .hist nh => .ok (s ++ [nh], some s.length)
  | .externalRebin => .ok (s, none)

/-! ### `BinProxy` (`hist.py` lines 35-87) -/

/-- `BinProxy.__init__` stores the histogram reference, the cell index and
the cached per-axis coordinates — never any bin content or error. -/
structure BinProxy where
  hist : ℕ
  idx : ℕ
  xyz : ℕ × ℕ × ℕ
  deriving DecidableEq, Repr

/-- `BinProxy(hist, idx)` for a 1-dimensional histogram: `GetBinXYZ`
yields `(idx, 0, 0)`. -/
def mkBinProxy (r : ℕ) (idx : ℕ) : BinProxy := ⟨r, idx, (idx, 0, 0)⟩

/-- `BinProxy.value`: every read delegates to
`self.hist.GetBinContent(self.idx)` on the current histogram state. -/
def BinProxy.value (s : Store) (b : BinProxy) : ℚ :=
  (s.getH b.hist).GetBinContent (b.idx : ℤ)

/-- `BinProxy.error`: every read delegates to
`self.hist.GetBinError(self.idx)` on the current histogram state. -/
def BinProxy.error (s : Store) (b : BinProxy) : ℚ :=
  (s.getH b.hist).GetBinError (b.idx : ℤ)

/-- `SetBinContent` on the store, the mutation used to probe that a
`BinProxy` caches nothing. -/
def setBinContentStore (s : Store) (r : ℕ) (i : ℤ) (v : ℚ) : Store :=
  s.set r ((s.getH r).SetBinContent1 i v)

/-- `SetBinError` on the store. -/
def setBinErrorStore (s : Store) (r : ℕ) (i : ℤ) (e : ℚ) : Store :=
  s.set r ((s.getH r).SetBinError i e)

/-! ### `lowerbound` / `upperbound` (`hist.py` lines 417-435) -/

/-- A value produced by `_HistBase._edges(axis, index)`: the indexed form
pads the edge sequence with `-inf` and `+inf` sentinels. -/
inductive EdgeVal where
  | negInf
  | posInf
  | val (q : ℚ)
  deriving DecidableEq, Repr

/-- `_HistBase._edges(axis, index)` of a 1-dimensional histogram with an
integer index: the index is reduced modulo `nbins + 3`; 0 is `-inf`,
`nbins + 2` is `+inf`, index `nbins` reads the axis upper edge and any
other index the corresponding low edge. -/
def edgesAt (h : Hist1) (index : ℤ) : EdgeVal :=
  let m := (index % ((h.nbins : ℤ) + 3)).toNat
  if m = 0 then .negInf
  else if m = h.nbins + 2 then .posInf
  else if m = h.nbins then .val (h.edges.getD h.nbins 0)
  else .val (h.edges.getD (m - 1) 0)

/-- What `lowerbound` / `upperbound` evaluate to: an edge value, a
**returned** `ValueError` instance (not raised!), or a raised exception
(`AttributeError`, since `_Hist` defines no `yedges`/`zedges`). -/
inductive BoundResult where
  | edge (e : EdgeVal)
  | valueErrorInstance
  | raised (e : PyErr)
  deriving DecidableEq, Repr

/-- `_HistBase.lowerbound(axis)` on a 1-dimensional histogram: axis 0
reads `xedges(0)`; axes 1 and 2 look up the missing `yedges` / `zedges`
attribute and raise `AttributeError`; any other axis falls through to
`return ValueError(...)` — the exception instance is returned as the
result value. -/
def lowerbound (h : Hist1) (axis : ℤ) : BoundResult :=
  if axis = 0 then .edge (edgesAt h 0)
  else if axis = 1 then .raised .attributeError
  else if axis = 2 then .raised .attributeError
  else .valueErrorInstance

/-- `_HistBase.upperbound(axis)` on a 1-dimensional histogram: like
`lowerbound` with index `-1`. -/
def upperbound (h : Hist1) (axis : ℤ) : BoundResult :=
  if axis = 0 then .edge (edgesAt h (-1))
  else if axis = 1 then .raised .attributeError
  else if axis = 2 then .raised .attributeError
  else .valueErrorInstance

/-- `_HistBase.axis(axis)`: returns the axis object for 0, 1, 2 and raises
`ValueError` otherwise; only the error behaviour matters here, the axis
object is represented by its index. -/
def axisSel (h : Hist1) (axis : ℤ) : Except PyErr ℕ :=
  if axis = 0 then .ok 0
  else if axis = 1 then .ok 1
  else if axis = 2 then .ok 2
  else .error .valueError

/-! ### `ensure_directory` (`userdata.py` lines 16-31) -/

/-- A Python string, modelled as its character sequence. -/
abbrev PyStr := List Char

/-- `path.startswith('~')`: the first character is a tilde. -/
def startsWithTilde (p : PyStr) : Bool :=
  match p with
  | [] => false
  | c :: _ => decide (c = '~')

/-- The file-system state visible to `ensure_directory`: which paths exist
and which of them are directories. -/
structure FileSys where
  pathExists : PyStr → Bool
  pathIsDir : PyStr → Bool

/-- `os.makedirs(path)`: afterwards a directory exists at `path` (parent
creation is irrelevant to the observed path). -/
def makedirs (fs : FileSys) (p : PyStr) : FileSys :=
  { pathExists := fun q => decide (q = p) || fs.pathExists q
    pathIsDir := fun q => decide (q = p) || fs.pathIsDir q }

/-- The path `ensure_directory` works on: the environment value expanded
with `expanduser` then `expandvars`, or the default expanded with
`expandvars` only. -/
def expandedPath (expanduser expandvars : PyStr → PyStr)
    (envVal : Option PyStr) (default : PyStr) : PyStr :=
  match envVal with
  | none => expandvars default
  | some p => expandvars (expanduser p)

/-- `ensure_directory(variable, default)` of `userdata.py`, parametrised
by the expansion functions and the file-system state: give up (`None`)
when the expanded path still starts with `~`; create the directory when
nothing exists there; give up when a non-directory occupies the path;
otherwise return the path. -/
def ensure_directory (expanduser expandvars : PyStr → PyStr) (fs : FileSys)
    (envVal : Option PyStr) (default : PyStr) : Option PyStr × FileSys :=
  let path := expandedPath expanduser expandvars envVal default
  if startsWithTilde path then (none, fs)
  else if ¬ fs.pathExists path then (some path, makedirs fs path)
  else if ¬ fs.pathIsDir path then (none, fs)
  else (some path, fs)

/-! ### Auxiliary predicates and concrete states used by the statements -/

/-- The claim's enumeration of an invalid bin range handed to
`merge_bins`: not a pair, equal endpoints, or a negative left with a
non-negative right. -/
def badRangeB (w : List ℤ) : Bool :=
  match w with
  | [l, r] => decide (l = r) || (decide (l < 0) && decide (0 ≤ r))
  | _ => true

/-- An empty file system: nothing exists. -/
def fs0 : FileSys := ⟨fun _ => false, fun _ => false⟩

/-- A two-bin histogram with unit content everywhere, used as a concrete
probe. -/
def histTwo : Hist1 := ⟨[0, 1, 2], [1, 1, 1, 1], [1, 1, 1, 1], 4⟩

/-- A three-bin histogram with distinct cell contents, used as a concrete
probe. -/
def histThree : Hist1 := ⟨[0, 1, 2, 3], [5, 1, 2, 3, 7], [5, 1, 2, 3, 7], 18⟩

/-- A three-bin histogram whose in-range contents sum to 4, used to probe
the quantile search. -/
def histQ : Hist1 := ⟨[0, 1, 2, 3], [0, 1, 2, 1, 0], [0, 1, 2, 1, 0], 4⟩

/-- A well-formed two-bin histogram with zero total content: the
degenerate case of the quantile search, where `ComputeIntegral` leaves the
cumulative array unnormalised. -/
def histZero : Hist1 := ⟨[0, 1, 2], [0, 0, 0, 0], [0, 0, 0, 0], 0⟩

/-- `histThree` with its bins 1 and 2 merged. -/
def histThreeMerged : Hist1 := ⟨[0, 2, 3], [5, 3, 3, 7], [5, 3, 3, 7], 18⟩

/-- The histogram state after one iteration of the `merge_bins` fill
loop (contents through the clamping per-axis `SetBinContent`, `fSumw2`
through `set_sum_w2`). -/
def mergeStep (h : Hist1) (tr : ℕ → ℤ) (nh : Hist1) (i : ℕ) : Hist1 :=
  let t := tr i
  let nh1 := nh.SetBinContent3 t (nh.GetBinContent t + h.GetBinContent (i : ℤ))
  let w := h.sumw2.getD ((i : ℤ)).toNat 0 + nh1.sumw2.getD t.toNat 0
  { nh1 with sumw2 := nh1.sumw2.set t.toNat w }

/-- `histTwo` after `Fill(1/2)`: one more count in the first bin. -/
def histTwoFilled : Hist1 := ⟨[0, 1, 2], [1, 2, 1, 1], [1, 2, 1, 1], 5⟩

/-- `histThree` rebinned onto the edges `[0, 2, 3]`. -/
def histThreeRebinned : Hist1 := ⟨[0, 2, 3], [0, 3, 3, 0], [0, 3, 3, 0], 18⟩

/-! ## Shared helper lemmas -/

theorem getD_set_self {l : List ℚ} {j : ℕ} (hj : j < l.length) (v : ℚ) :
    (l.set j v).getD j 0 = v := by
  simp [List.getD_eq_getElem?_getD, List.getElem?_set, hj]

theorem getD_set_ne {l : List ℚ} {j k : ℕ} (h : j ≠ k) (v : ℚ) :
    (l.set j v).getD k 0 = l.getD k 0 := by
  simp [List.getD_eq_getElem?_getD, List.getElem?_set, h]

theorem getD_mem {l : List ℚ} {j : ℕ} (hj : j < l.length) : l.getD j 0 ∈ l := by
  rw [List.getD_eq_getElem?_getD, List.getElem?_eq_getElem hj]
  exact List.getElem_mem hj

theorem sum_set_add (l : List ℚ) (j : ℕ) (c : ℚ) (hj : j < l.length) :
    (l.set j (l.getD j 0 + c)).sum = l.sum + c := by
  have hset := List.sum_set l j (l.getD j 0 + c)
  have hsplit : l.sum = (l.take j).sum + (l.getD j 0 + (l.drop (j + 1)).sum) := by
    rw [← List.sum_take_add_sum_drop l j, List.drop_eq_getElem_cons hj, List.sum_cons,
      List.getD_eq_getElem?_getD, List.getElem?_eq_getElem hj]
    rfl
  rw [hset, if_pos hj, hsplit]
  ring

theorem map_getD_range (l : List ℚ) :
    (List.range l.length).map (fun i => l.getD i 0) = l := by
  induction l with
  | nil => rfl
  | cons a l ih =>
    have hf : ((fun i => (a :: l).getD i 0) ∘ Nat.succ) = fun i => l.getD i 0 := by
      funext i
      simp [List.getD_cons_succ]
    rw [List.length_cons, List.range_succ_eq_map, List.map_cons, List.map_map, hf, ih]
    rfl

theorem dedup_length_eq_iff {l : List ℚ} : l.dedup.length = l.length ↔ l.Nodup := by
  constructor
  · intro hlen
    have := (List.dedup_sublist l).eq_of_length hlen
    rw [← this]
    exact List.nodup_dedup l
  · intro hnd
    rw [List.dedup_eq_self.mpr hnd]

theorem isSortedAsc_iff_chain : ∀ {l : List ℚ}, isSortedAsc l = true ↔ l.Chain' (· ≤ ·)
  | [] => by simp [isSortedAsc]
  | [a] => by simp [isSortedAsc]
  | a :: b :: l => by
    rw [isSortedAsc, Bool.and_eq_true, decide_eq_true_eq, List.chain'_cons,
      isSortedAsc_iff_chain]

theorem except_bind_ok {α β : Type} {x : Except PyErr α} {f : α → Except PyErr β}
    {b : β} : (x >>= f) = .ok b ↔ ∃ a, x = .ok a ∧ f a = .ok b := by
  cases x <;> simp [Bind.bind, Except.bind]

theorem except_bind_error {α β : Type} {x : Except PyErr α}
    {f : α → Except PyErr β} {e : PyErr} :
    (x >>= f) = .error e ↔ x = .error e ∨ ∃ a, x = .ok a ∧ f a = .error e := by
  cases x <;> simp [Bind.bind, Except.bind]

theorem getH_append {s : Store} {h : Hist1} {q : ℕ} (hq : q < s.length) :
    (s ++ [h]).getH q = s.getH q :=
  List.getD_append s [h] default q hq

theorem getH_append_last (s : Store) (h : Hist1) : (s ++ [h]).getH s.length = h := by
  unfold Store.getH
  rw [List.getD_append_right s [h] default s.length le_rfl]
  simp

theorem getH_set_self {s : Store} {h : Hist1} {r : ℕ} (hr : r < s.length) :
    Store.getH (s.set r h) r = h := by
  unfold Store.getH
  simp [List.getD_eq_getElem?_getD, List.getElem?_set, hr]

theorem getH_set_ne {s : Store} {h : Hist1} {r q : ℕ} (hq : r ≠ q) :
    Store.getH (s.set r h) q = Store.getH s q := by
  unfold Store.getH
  simp [List.getD_eq_getElem?_getD, List.getElem?_set, hq]

/-! ## Claim C9: `lowerbound` / `upperbound` return rather than raise on an
invalid axis -/

/-- C9.  For every axis argument outside `{0, 1, 2}`, `lowerbound` and
`upperbound` do not raise: they return a `ValueError` exception instance
as their result value, while `nbins` and `axis` raise `ValueError` for the
same axis argument. -/
theorem C9_lowerbound_upperbound_return_valueerror
    (h : Hist1) (axis : ℤ) (h0 : axis ≠ 0) (h1 : axis ≠ 1) (h2 : axis ≠ 2) :
    lowerbound h axis = .valueErrorInstance ∧
    upperbound h axis = .valueErrorInstance ∧
    h.nbinsAxis axis = .error .valueError ∧
    axisSel h axis = .error .valueError := by
  refine ⟨?_, ?_, ?_, ?_⟩ <;>
    simp [lowerbound, upperbound, Hist1.nbinsAxis, axisSel, h0, h1, h2]

/-- Witness for C9 at the concrete axis 3. -/
theorem C9_witness :
    lowerbound histTwo 3 = .valueErrorInstance ∧
    upperbound histTwo 3 = .valueErrorInstance ∧
    histTwo.nbinsAxis 3 = .error .valueError ∧
    axisSel histTwo 3 = .error .valueError :=
  C9_lowerbound_upperbound_return_valueerror histTwo 3 (by decide) (by decide)
    (by decide)

/-! ## Claim C10: `ensure_directory` -/

/-- C10.  `ensure_directory` returns `None` or a path; a returned path
never starts with `~` and a directory exists at it in the resulting file
system (created when absent); `None` is returned exactly when the expanded
path still starts with `~` or a non-directory occupies it. -/
theorem C10_ensure_directory (expanduser expandvars : PyStr → PyStr)
    (fs : FileSys) (envVal : Option PyStr) (default : PyStr) :
    (∀ p, (ensure_directory expanduser expandvars fs envVal default).1 = some p →
      startsWithTilde p = false ∧
      (ensure_directory expanduser expandvars fs envVal default).2.pathExists p = true ∧
      (ensure_directory expanduser expandvars fs envVal default).2.pathIsDir p = true) ∧
    ((ensure_directory expanduser expandvars fs envVal default).1 = none ↔
      startsWithTilde (expandedPath expanduser expandvars envVal default) = true ∨
      (fs.pathExists (expandedPath expanduser expandvars envVal default) = true ∧
        fs.pathIsDir (expandedPath expanduser expandvars envVal default) = false)) := by
  cases h1 : startsWithTilde (expandedPath expanduser expandvars envVal default) <;>
    cases h2 : fs.pathExists (expandedPath expanduser expandvars envVal default) <;>
      cases h3 : fs.pathIsDir (expandedPath expanduser expandvars envVal default) <;>
        refine ⟨fun p hp => ?_, ?_⟩ <;>
          simp_all [ensure_directory, makedirs]

/-- Witness for C10: on an empty file system with no environment value the
default path is returned and a directory is created there. -/
theorem C10_witness :
    startsWithTilde "/tmp/x".data = false ∧
    (ensure_directory id id fs0 none "/tmp/x".data).2.pathExists "/tmp/x".data = true ∧
    (ensure_directory id id fs0 none "/tmp/x".data).2.pathIsDir "/tmp/x".data = true :=
  (C10_ensure_directory id id fs0 none "/tmp/x".data).1 "/tmp/x".data (by decide)

/-! ## Claim C7: `BinProxy` caches no bin data -/

theorem getBin_coe {h : Hist1} {i : ℕ} (hi : i < h.sizeH) : h.getBin (i : ℤ) = i := by
  unfold Hist1.getBin
  unfold Hist1.sizeH at hi
  rw [if_neg (by omega), if_neg (by omega)]
  exact Int.toNat_natCast i

theorem GetBinContent_set_self {h : Hist1} {i : ℕ} (hwf : h.Wf) (hi : i < h.sizeH)
    (v : ℚ) : (h.SetBinContent1 (i : ℤ) v).GetBinContent (i : ℤ) = v := by
  unfold Hist1.SetBinContent1
  rw [if_pos (by constructor <;> [positivity; (push_cast; omega)])]
  unfold Hist1.GetBinContent
  have hgb : Hist1.getBin { h with contents := h.contents.set i v } (i : ℤ) = i :=
    @getBin_coe { h with contents := h.contents.set i v } i hi
  rw [show ((i : ℤ)).toNat = i from Int.toNat_natCast i, hgb]
  exact getD_set_self (by rw [hwf.2.2.1]; exact hi) v

theorem GetBinError_set_self {h : Hist1} {i : ℕ} (hwf : h.Wf) (hi : i < h.sizeH)
    (e : ℚ) : (h.SetBinError (i : ℤ) e).GetBinError (i : ℤ) = e := by
  unfold Hist1.SetBinError
  rw [if_pos (by constructor <;> [positivity; (push_cast; omega)])]
  unfold Hist1.GetBinError
  have hgb : Hist1.getBin { h with sumw2 := h.sumw2.set i e } (i : ℤ) = i :=
    @getBin_coe { h with sumw2 := h.sumw2.set i e } i hi
  rw [show ((i : ℤ)).toNat = i from Int.toNat_natCast i, hgb]
  exact getD_set_self (by rw [hwf.2.2.2]; exact hi) e

/-- C7.  A `BinProxy` holds no bin data: its `value` and `error` read the
histogram through `GetBinContent` / `GetBinError` at every access, so a
mutation of the histogram after the proxy was created is seen by the
proxy. -/
theorem C7_binproxy_reads_through (s : Store) (r i : ℕ) (v e : ℚ)
    (hr : r < s.length) (hwf : (Store.getH s r).Wf)
    (hi : i < (Store.getH s r).sizeH) :
    (∀ s' : Store,
      (mkBinProxy r i).value s' = (Store.getH s' r).GetBinContent (i : ℤ) ∧
      (mkBinProxy r i).error s' = (Store.getH s' r).GetBinError (i : ℤ)) ∧
    (mkBinProxy r i).value (setBinContentStore s r (i : ℤ) v) = v ∧
    (mkBinProxy r i).error (setBinErrorStore s r (i : ℤ) e) = e := by
  refine ⟨fun s' => ⟨rfl, rfl⟩, ?_, ?_⟩
  · show ((setBinContentStore s r (i : ℤ) v).getH r).GetBinContent (i : ℤ) = v
    unfold setBinContentStore
    rw [getH_set_self hr]
    exact GetBinContent_set_self hwf hi v
  · show ((setBinErrorStore s r (i : ℤ) e).getH r).GetBinError (i : ℤ) = e
    unfold setBinErrorStore
    rw [getH_set_self hr]
    exact GetBinError_set_self hwf hi e

/-- Witness for C7 in a one-histogram store. -/
theorem C7_witness :
    (mkBinProxy 0 1).value (setBinContentStore [histTwo] 0 (1 : ℤ) 9) = 9 ∧
    (mkBinProxy 0 1).error (setBinErrorStore [histTwo] 0 (1 : ℤ) 4) = 4 :=
  ⟨(C7_binproxy_reads_through [histTwo] 0 1 9 4 (by decide) (by decide)
      (by decide)).2.1,
   (C7_binproxy_reads_through [histTwo] 0 1 9 4 (by decide) (by decide)
      (by decide)).2.2⟩

/-! ## Claim C5: `__getitem__` range checking -/

/-- C5.  An integer index yields a `BinProxy` for that global bin exactly
when `0 ≤ i < GetSize()`, and raises `IndexError` otherwise (so for every
negative index); a tuple index on a 2- or 3-dimensional histogram demands
`0 ≤ index < nbins(axis) + 2` on every axis, raising `IndexError`
otherwise. -/
theorem C5_getitem_range (s : HistShape) (n i j k : ℤ) :
    ((getitem s (.int n) = .ok n.toNat ↔ 0 ≤ n ∧ n < (s.sizeS : ℤ)) ∧
      (¬(0 ≤ n ∧ n < (s.sizeS : ℤ)) → getitem s (.int n) = .error .indexError)) ∧
    (s.dim = 2 →
      ((∃ m, getitem s (.tup2 i j) = .ok m) ↔
        (0 ≤ i ∧ i < (s.nbinsAx 0 + 2 : ℤ)) ∧ (0 ≤ j ∧ j < (s.nbinsAx 1 + 2 : ℤ))) ∧
      (¬((0 ≤ i ∧ i < (s.nbinsAx 0 + 2 : ℤ)) ∧ (0 ≤ j ∧ j < (s.nbinsAx 1 + 2 : ℤ))) →
        getitem s (.tup2 i j) = .error .indexError)) ∧
    (s.dim = 3 →
      ((∃ m, getitem s (.tup3 i j k) = .ok m) ↔
        (0 ≤ i ∧ i < (s.nbinsAx 0 + 2 : ℤ)) ∧ (0 ≤ j ∧ j < (s.nbinsAx 1 + 2 : ℤ)) ∧
          (0 ≤ k ∧ k < (s.nbinsAx 2 + 2 : ℤ))) ∧
      (¬((0 ≤ i ∧ i < (s.nbinsAx 0 + 2 : ℤ)) ∧ (0 ≤ j ∧ j < (s.nbinsAx 1 + 2 : ℤ)) ∧
          (0 ≤ k ∧ k < (s.nbinsAx 2 + 2 : ℤ))) →
        getitem s (.tup3 i j k) = .error .indexError)) := by
  refine ⟨⟨?_, ?_⟩, fun hd2 => ⟨?_, ?_⟩, fun hd3 => ⟨?_, ?_⟩⟩
  · by_cases hc : 0 ≤ n ∧ n < (s.sizeS : ℤ) <;>
      simp [getitem, HistShape.range_check, hc, Bind.bind, Except.bind]
  · intro hc
    simp [getitem, HistShape.range_check, hc, Bind.bind, Except.bind]
  · have hne : s.dim ≠ 3 := by omega
    by_cases hc1 : 0 ≤ i ∧ i < (s.nbinsAx 0 + 2 : ℤ) <;>
      by_cases hc2 : 0 ≤ j ∧ j < (s.nbinsAx 1 + 2 : ℤ) <;>
        simp [getitem, HistShape.range_check, hd2, hc1, hc2, Bind.bind, Except.bind]
  · intro hc
    by_cases hc1 : 0 ≤ i ∧ i < (s.nbinsAx 0 + 2 : ℤ) <;>
      by_cases hc2 : 0 ≤ j ∧ j < (s.nbinsAx 1 + 2 : ℤ)
    · exact absurd ⟨hc1, hc2⟩ hc
    all_goals
      simp [getitem, HistShape.range_check, hd2, hc1, hc2, Bind.bind, Except.bind]
  · have hne : s.dim ≠ 2 := by omega
    by_cases hc1 : 0 ≤ i ∧ i < (s.nbinsAx 0 + 2 : ℤ) <;>
      by_cases hc2 : 0 ≤ j ∧ j < (s.nbinsAx 1 + 2 : ℤ) <;>
        by_cases hc3 : 0 ≤ k ∧ k < (s.nbinsAx 2 + 2 : ℤ) <;>
          simp [getitem, HistShape.range_check, hd3, hne, hc1, hc2, hc3, Bind.bind, Except.bind]
  · intro hc
    have hne : s.dim ≠ 2 := by omega
    by_cases hc1 : 0 ≤ i ∧ i < (s.nbinsAx 0 + 2 : ℤ) <;>
      by_cases hc2 : 0 ≤ j ∧ j < (s.nbinsAx 1 + 2 : ℤ) <;>
        by_cases hc3 : 0 ≤ k ∧ k < (s.nbinsAx 2 + 2 : ℤ)
    · exact absurd ⟨hc1, hc2, hc3⟩ hc
    all_goals
      simp [getitem, HistShape.range_check, hd3, hne, hc1, hc2, hc3, Bind.bind,
        Except.bind]

/-- Witness for C5: a negative global index raises `IndexError` on a 2×3×4
histogram, and an in-range tuple succeeds. -/
theorem C5_witness :
    getitem ⟨2, 3, 4, 1⟩ (.int (-1)) = .error .indexError ∧
    (∃ m, getitem ⟨2, 3, 4, 1⟩ (.tup2 1 5) = .ok m) :=
  ⟨(C5_getitem_range ⟨2, 3, 4, 1⟩ (-1) 1 5 0).1.2 (by decide),
   ((C5_getitem_range ⟨2, 3, 4, 1⟩ (-1) 1 5 0).2.1 (by decide)).1.mpr (by decide)⟩

/-! ## Claim C6: arithmetic operators clone; only the in-place forms
mutate -/

/-- C6.  Each binary operator `+`, `-`, `*`, `/` clones the receiver,
applies the in-place operation to the clone and returns the fresh object,
leaving every existing object — in particular the receiver's bin contents
and errors — unchanged; the in-place forms replace the receiver's state;
in-place division by the scalar zero raises `ZeroDivisionError` before any
mutation. -/
theorem C6_operators_clone_inplace_mutates (s : Store) (r : ℕ) (o : Operand)
    (h' : Hist1) (hr : r < s.length)
    (op : Hist1 → Operand → Except PyErr Hist1)
    (hop : op = iaddH ∨ op = isubH ∨ op = imulH ∨ op = idivH) :
    (op (Store.getH s r) o = .ok h' →
      binOpStore op s r o = .ok (s ++ [h'], s.length) ∧
      Store.getH (s ++ [h']) s.length = h' ∧
      (∀ q, q < s.length → Store.getH (s ++ [h']) q = Store.getH s q) ∧
      inPlaceStore op s r o = .ok (s.set r h') ∧
      Store.getH (s.set r h') r = h') ∧
    (idivH (Store.getH s r) (.scalar 0) = .error .zeroDivisionError ∧
      inPlaceStore idivH s r (.scalar 0) = .error .zeroDivisionError ∧
      binOpStore idivH s r (.scalar 0) = .error .zeroDivisionError) := by
  constructor
  · intro hok
    refine ⟨?_, getH_append_last s h', fun q hq => getH_append hq, ?_,
      getH_set_self hr⟩
    · unfold binOpStore
      rw [hok]
      rfl
    · unfold inPlaceStore
      rw [hok]
      rfl
  · have hz : idivH (Store.getH s r) (.scalar 0) = .error .zeroDivisionError := by
      simp [idivH]
    refine ⟨hz, ?_, ?_⟩
    · unfold inPlaceStore
      rw [hz]
      rfl
    · unfold binOpStore
      rw [hz]
      rfl

/-- Witness for C6: adding the scalar 1/2 to a one-histogram store fills
the clone and leaves the original untouched; in-place division by zero
raises. -/
theorem C6_witness :
    binOpStore iaddH [histTwo] 0 (.scalar (1 / 2)) = .ok ([histTwo, histTwoFilled], 1) ∧
    Store.getH ([histTwo] ++ [histTwoFilled]) 0 = Store.getH [histTwo] 0 ∧
    inPlaceStore idivH [histTwo] 0 (.scalar 0) = .error .zeroDivisionError := by
  have hok : iaddH (Store.getH [histTwo] 0) (.scalar (1 / 2)) = .ok histTwoFilled := by
    norm_num [iaddH, Hist1.Fill, Hist1.FindBin, histTwo, histTwoFilled, Store.getH,
      List.countP, List.countP.go]
  have hthm := C6_operators_clone_inplace_mutates [histTwo] 0 (.scalar (1 / 2))
    histTwoFilled (by decide) iaddH (Or.inl rfl)
  exact ⟨(hthm.1 hok).1, (hthm.1 hok).2.2.1 0 (by decide), hthm.2.2.1⟩

/-! ## Claim C8: `_parse_args` validation and postcondition -/

/-- Every axis parameter set produced by a successful parse has explicit
edges with `nbins = len(edges) - 1`, or `nbins ≥ 1` with `low < high`. -/
theorem parseAxes_post (d : ℕ) :
    ∀ (args : List Arg) (ps : List AxisParams) (rest : List Arg),
      parseAxes d args = .ok (ps, rest) → ∀ p ∈ ps,
        (∃ l, p.bins = some l ∧ p.nbins = (l.length : ℤ) - 1) ∨
        (p.bins = none ∧ 1 ≤ p.nbins ∧
          ∃ lo hi, p.low = some lo ∧ p.high = some hi ∧ lo < hi) := by
  induction d with
  | zero =>
    intro args ps rest h p hp
    simp only [parseAxes, Except.ok.injEq, Prod.mk.injEq] at h
    rw [← h.1] at hp
    cases hp
  | succ d ih =>
    intro args ps rest h p hp
    cases args with
    | nil => simp [parseAxes] at h
    | cons a rest' =>
      cases a with
      | iter l =>
        simp only [parseAxes] at h
        split at h
        · cases h
        split at h
        · cases h
        rw [except_bind_ok] at h
        obtain ⟨pr, hrec, h⟩ := h
        simp only [Except.ok.injEq, Prod.mk.injEq] at h
        rw [← h.1, List.mem_cons] at hp
        rcases hp with rfl | hp
        · exact Or.inl ⟨l, rfl, rfl⟩
        · exact ih rest' pr.1 pr.2 (by rw [hrec]) p hp
      | intArg n =>
        simp only [parseAxes] at h
        split at h
        case isFalse => cases h
        split at h
        · cases h
        split at h
        · cases h
        split at h
        · cases h
        split at h
        · cases h
        rw [except_bind_ok] at h
        obtain ⟨pr, hrec, h⟩ := h
        simp only [Except.ok.injEq, Prod.mk.injEq] at h
        rw [← h.1, List.mem_cons] at hp
        rcases hp with rfl | hp
        · refine Or.inr ⟨rfl, ?_, ?_⟩
          · show (1 : ℤ) ≤ n
            omega
          · refine ⟨_, _, rfl, rfl, lt_of_not_le (by assumption)⟩
        · exact ih (rest'.drop 2) pr.1 pr.2 (by rw [hrec]) p hp
      | floatArg q =>
        simp only [parseAxes] at h
        split at h <;> cases h
      | other =>
        simp only [parseAxes] at h
        split at h <;> cases h

/-- C8.  `_parse_args` raises `ValueError` on unsorted or repeated
explicit bin edges, `TypeError` when the bin count is not an `int` or a
bound is not a basic numeric type, `ValueError` when the bin count is
below one or the lower bound is not below the upper, and `TypeError` on
too few or too many remaining arguments; on success every axis has
explicit edges with `nbins` one less than their number, or `nbins ≥ 1`
with `low < high`. -/
theorem C8_parse_args_validation :
    (∀ d l rest, 0 < d → isSortedAsc l = false →
      parse_args d (.iter l :: rest) = .error .valueError) ∧
    (∀ d l rest, 0 < d → isSortedAsc l = true → hasDup l = true →
      parse_args d (.iter l :: rest) = .error .valueError) ∧
    (∀ d a rest, 0 < d → (∀ n, a ≠ .intArg n) → (∀ l, a ≠ .iter l) →
      2 ≤ rest.length → parse_args d (a :: rest) = .error .typeError) ∧
    (∀ d n rest, 0 < d → 2 ≤ rest.length → n < 1 →
      parse_args d (.intArg n :: rest) = .error .valueError) ∧
    (∀ d n a2 a3 rest, 0 < d → 1 ≤ n → isbasic a2 = none →
      parse_args d (.intArg n :: a2 :: a3 :: rest) = .error .typeError) ∧
    (∀ d n a2 a3 rest lo, 0 < d → 1 ≤ n → isbasic a2 = some lo →
      isbasic a3 = none →
      parse_args d (.intArg n :: a2 :: a3 :: rest) = .error .typeError) ∧
    (∀ d n a2 a3 rest lo hi, 0 < d → 1 ≤ n → isbasic a2 = some lo →
      isbasic a3 = some hi → hi ≤ lo →
      parse_args d (.intArg n :: a2 :: a3 :: rest) = .error .valueError) ∧
    (∀ d, parse_args (d + 1) [] = .error .typeError) ∧
    (∀ d a rest, 0 < d → (∀ l, a ≠ .iter l) → rest.length < 2 →
      parse_args d (a :: rest) = .error .typeError) ∧
    (∀ d args ps rest, parseAxes d args = .ok (ps, rest) → rest ≠ [] →
      parse_args d args = .error .typeError) ∧
    (∀ d args ps, parse_args d args = .ok ps → ∀ p ∈ ps,
      (∃ l, p.bins = some l ∧ p.nbins = (l.length : ℤ) - 1) ∨
      (p.bins = none ∧ 1 ≤ p.nbins ∧
        ∃ lo hi, p.low = some lo ∧ p.high = some hi ∧ lo < hi)) := by
  refine ⟨?_, ?_, ?_, ?_, ?_, ?_, ?_, ?_, ?_, ?_, ?_⟩
  · intro d l rest hd hl
    obtain ⟨d', rfl⟩ : ∃ d', d = d' + 1 := ⟨d - 1, by omega⟩
    simp [parse_args, parseAxes, hl, Bind.bind, Except.bind]
  · intro d l rest hd hl hdup
    obtain ⟨d', rfl⟩ : ∃ d', d = d' + 1 := ⟨d - 1, by omega⟩
    simp [parse_args, parseAxes, hl, hdup, Bind.bind, Except.bind]
  · intro d a rest hd hnotint hnotiter hlen
    obtain ⟨d', rfl⟩ : ∃ d', d = d' + 1 := ⟨d - 1, by omega⟩
    have h3 : 3 ≤ rest.length + 1 := by omega
    cases a with
    | iter l => exact absurd rfl (hnotiter l)
    | intArg n => exact absurd rfl (hnotint n)
    | floatArg q => simp [parse_args, parseAxes, h3, Bind.bind, Except.bind]
    | other => simp [parse_args, parseAxes, h3, Bind.bind, Except.bind]
  · intro d n rest hd hlen hn
    obtain ⟨d', rfl⟩ : ∃ d', d = d' + 1 := ⟨d - 1, by omega⟩
    have h3 : 3 ≤ rest.length + 1 := by omega
    simp [parse_args, parseAxes, h3, hn, Bind.bind, Except.bind]
  · intro d n a2 a3 rest hd hn hlo
    obtain ⟨d', rfl⟩ : ∃ d', d = d' + 1 := ⟨d - 1, by omega⟩
    have h3 : 3 ≤ (a2 :: a3 :: rest).length + 1 := by simp
    have hn' : ¬ n < 1 := by omega
    simp [parse_args, parseAxes, h3, hn', hlo, Bind.bind, Except.bind]
  · intro d n a2 a3 rest lo hd hn hlo hhi
    obtain ⟨d', rfl⟩ : ∃ d', d = d' + 1 := ⟨d - 1, by omega⟩
    have h3 : 3 ≤ (a2 :: a3 :: rest).length + 1 := by simp
    have hn' : ¬ n < 1 := by omega
    simp [parse_args, parseAxes, h3, hn', hlo, hhi, Bind.bind, Except.bind]
  · intro d n a2 a3 rest lo hi hd hn hlo hhi hle
    obtain ⟨d', rfl⟩ : ∃ d', d = d' + 1 := ⟨d - 1, by omega⟩
    have h3 : 3 ≤ (a2 :: a3 :: rest).length + 1 := by simp
    have hn' : ¬ n < 1 := by omega
    simp [parse_args, parseAxes, h3, hn', hlo, hhi, hle, Bind.bind, Except.bind]
  · intro d
    simp [parse_args, parseAxes, Bind.bind, Except.bind]
  · intro d a rest hd hnotiter hlen
    obtain ⟨d', rfl⟩ : ∃ d', d = d' + 1 := ⟨d - 1, by omega⟩
    have h3 : ¬ 3 ≤ rest.length + 1 := by omega
    cases a with
    | iter l => exact absurd rfl (hnotiter l)
    | intArg n => simp [parse_args, parseAxes, h3, Bind.bind, Except.bind]
    | floatArg q => simp [parse_args, parseAxes, h3, Bind.bind, Except.bind]
    | other => simp [parse_args, parseAxes, h3, Bind.bind, Except.bind]
  · intro d args ps rest hok hne
    cases rest with
    | nil => exact absurd rfl hne
    | cons b bs => simp [parse_args, hok, Bind.bind, Except.bind]
  · intro d args ps hok p hp
    unfold parse_args at hok
    cases hax : parseAxes d args with
    | error e =>
      rw [hax] at hok
      simp [Bind.bind, Except.bind] at hok
    | ok pr =>
      rw [hax] at hok
      simp only [Bind.bind, Except.bind] at hok
      split at hok
      · cases hok
        exact parseAxes_post d args pr.1 pr.2 (by rw [hax]) p hp
      · cases hok

/-- Witness for C8 at concrete inputs: unsorted edges raise `ValueError`
and a two-axis parse of a valid edge list plus a `(nbins, low, high)`
triple succeeds with the claimed postcondition shape. -/
theorem C8_witness :
    parse_args 1 [.iter [1, 0]] = .error .valueError ∧
    parse_args 1 [.intArg 0, .floatArg 0, .floatArg 1] = .error .valueError := by
  constructor
  · exact C8_parse_args_validation.1 1 [1, 0] [] (by decide) (by norm_num [isSortedAsc])
  · exact C8_parse_args_validation.2.2.2.1 1 0 [.floatArg 0, .floatArg 1] (by decide)
      (by decide) (by decide)

/-! ## Claim C3: strict quantiles are sorted, duplicate-free bin edges -/

theorem sortDedup_sorted (l : List ℚ) : (sortDedup l).Sorted (· ≤ ·) := by
  have h := @List.sorted_mergeSort ℚ (fun a b : ℚ => decide (a ≤ b))
    (fun a b c hab hbc => by
      simp only [decide_eq_true_eq] at *
      exact le_trans hab hbc)
    (fun a b => by
      simp only [Bool.or_eq_true, decide_eq_true_eq]
      exact le_total a b)
    l.dedup
  exact h.imp (fun hab => by simpa using hab)

theorem sortDedup_nodup (l : List ℚ) : (sortDedup l).Nodup :=
  (List.mergeSort_perm l.dedup _).nodup_iff.mpr (List.nodup_dedup l)

theorem sortDedup_subset {l : List ℚ} {x : ℚ} (hx : x ∈ sortDedup l) : x ∈ l :=
  List.mem_dedup.mp ((List.mergeSort_perm l.dedup _).mem_iff.mp hx)

theorem rawIntegral_length (h : Hist1) : (rawIntegral h).length = h.nbins + 1 := by
  rw [rawIntegral, List.length_scanl, List.length_range']

theorem integral_getD_nbins (h : Hist1) (ht : integralTotal h ≠ 0) :
    (GetIntegral h).getD h.nbins 0 = 1 := by
  have hlen : h.nbins < ((rawIntegral h).map (· / integralTotal h)).length := by
    rw [List.length_map, rawIntegral_length]
    omega
  rw [GetIntegral, List.getD_append _ _ _ _ hlen, List.getD_eq_getElem?_getD,
    List.getElem?_map]
  have hn : h.nbins < (rawIntegral h).length := by rw [rawIntegral_length]; omega
  rw [List.getElem?_eq_getElem hn]
  have hval : (rawIntegral h)[h.nbins] = integralTotal h := by
    rw [integralTotal, List.getD_eq_getElem?_getD, List.getElem?_eq_getElem hn]
    rfl
  simp [hval, div_self ht]

theorem qAdvance_le (integral : List ℚ) (nb : ℕ) (quant : ℚ)
    (hq : quant ≤ integral.getD nb 0) :
    ∀ (fuel ibin : ℕ), ibin ≤ nb → qAdvance integral (nb + 1) quant fuel ibin ≤ nb := by
  intro fuel
  induction fuel with
  | zero => intro ibin hib; exact hib
  | succ fuel ih =>
    intro ibin hib
    rw [qAdvance]
    split
    · rename_i hcond
      rcases Nat.lt_or_ge ibin nb with hlt | hge
      · exact ih (ibin + 1) hlt
      · have : ibin = nb := le_antisymm hib hge
        subst this
        exact absurd hcond.1 (not_lt.mpr hq)
    · exact hib

theorem qLoop_mem_edges (h : Hist1) (hwf : h.Wf) (ht : integralTotal h ≠ 0) :
    ∀ (qs : List ℚ) (ibin : ℕ), (∀ q ∈ qs, q ≤ 1) → ibin ≤ h.nbins →
      ∀ x ∈ qLoop h (GetIntegral h) qs ibin, x ∈ h.edges := by
  intro qs
  induction qs with
  | nil => intro ibin _ _ x hx; cases hx
  | cons quant qs ih =>
    intro ibin hq hib x hx
    rw [qLoop] at hx
    have hq1 : quant ≤ (GetIntegral h).getD h.nbins 0 := by
      rw [integral_getD_nbins h ht]
      exact hq quant (List.mem_cons_self _ _)
    have hle : qAdvance (GetIntegral h) (h.nbins + 1) quant (h.nbins + 2) ibin ≤
        h.nbins := qAdvance_le _ _ _ hq1 _ _ hib
    have hlen : h.edges.length = h.nbins + 1 := by
      have := hwf.1
      rw [Hist1.nbins]
      omega
    rcases List.mem_cons.mp hx with rfl | hx
    · rw [Hist1.GetBinLowEdge, if_pos ⟨by omega, by omega⟩]
      refine getD_mem ?_
      omega
    · split at hx
      · cases hx
      · exact ih _ (fun q hq' => hq q (List.mem_cons_of_mem _ hq')) hle x hx

/-- C3, amended.  On a zero-total histogram the property fails (the
counterexample below), so the claim holds for histograms with nonzero
total content: for a well-formed 1-dimensional histogram with nonzero
total content and cumulative probabilities at most 1,
`quantiles(..., strict=True)` (the pure-Python branch) returns a list
sorted ascending, without duplicates, all of whose elements are bin edges
of the histogram. -/
theorem C3_quantiles_strict (h : Hist1) (qs : List ℚ) (hwf : h.Wf)
    (ht : integralTotal h ≠ 0) (hq : ∀ q ∈ qs, q ≤ 1) :
    (quantiles_strict h qs).Sorted (· ≤ ·) ∧ (quantiles_strict h qs).Nodup ∧
    ∀ x ∈ quantiles_strict h qs, x ∈ h.edges := by
  refine ⟨sortDedup_sorted _, sortDedup_nodup _, fun x hx => ?_⟩
  have hx' := sortDedup_subset hx
  refine qLoop_mem_edges h hwf ht (sortDedup qs) 0
    (fun q hq' => hq q (sortDedup_subset hq')) (Nat.zero_le _) x hx'

/-- Witness for C3 on a concrete three-bin histogram and quantile list. -/
theorem C3_witness :
    (quantiles_strict histQ [1/2, 1/2, 1/10]).Sorted (· ≤ ·) ∧
    (quantiles_strict histQ [1/2, 1/2, 1/10]).Nodup ∧
    ∀ x ∈ quantiles_strict histQ [1/2, 1/2, 1/10], x ∈ histQ.edges := by
  refine C3_quantiles_strict histQ [1/2, 1/2, 1/10] (by decide) ?_ ?_
  · norm_num [integralTotal, rawIntegral, histQ, List.range', List.scanl,
      Hist1.GetBinContent, Hist1.getBin, Hist1.nbins]
    simp
    try norm_num
  · intro q hq
    simp only [List.mem_cons, List.not_mem_nil, or_false] at hq
    rcases hq with rfl | rfl | rfl <;> norm_num

/-- Counterexample to C3 as stated: on a well-formed two-bin histogram
with zero total content, `ComputeIntegral` leaves the cumulative array
unnormalised (all zeros), so for the quantile `1/2` the search runs
`ibin` past `nbins` and collects `GetBinLowEdge(nbins + 2)` — an
extrapolated value beyond the last edge, which is not a bin edge. -/
theorem C3_counterexample :
    histZero.Wf ∧ integralTotal histZero = 0 ∧
    quantiles_strict histZero [1 / 2] = [3] ∧
    ¬ ((3 : ℚ) ∈ histZero.edges) := by
  refine ⟨by decide, ?_, ?_, by decide⟩
  · norm_num [integralTotal, rawIntegral, histZero, List.range', List.scanl,
      Hist1.GetBinContent, Hist1.getBin, Hist1.nbins]
    simp
    try norm_num
  · rw [quantiles_strict]
    rw [show sortDedup [1 / 2] = [1 / 2] from by
      rw [sortDedup, show List.dedup [(1 : ℚ) / 2] = [1 / 2] from by simp]
      exact List.mergeSort_of_sorted (List.pairwise_singleton _ _)]
    rw [show qLoop histZero (GetIntegral histZero) [1 / 2] 0 = [3] from by
      norm_num [qLoop, qAdvance, GetIntegral, rawIntegral, integralTotal, histZero,
        List.range', List.scanl, Hist1.GetBinContent, Hist1.getBin, Hist1.nbins,
        Hist1.GetBinLowEdge]
      simp
      try norm_num]
    rw [sortDedup, show List.dedup [(3 : ℚ)] = [3] from by simp]
    exact List.mergeSort_of_sorted (List.pairwise_singleton _ _)

/-! ## Claim C4: `rebinned` with explicit new edges -/

theorem FindBin_lt_sizeH (h : Hist1) (x : ℚ) : h.FindBin x < h.sizeH := by
  have hle : h.FindBin x ≤ h.edges.length := by
    rw [Hist1.FindBin]
    exact List.countP_le_length _
  rw [Hist1.sizeH, Hist1.nbins]
  omega

theorem GetBinContent_coe (h : Hist1) (j : ℕ) (hj : j < h.sizeH) :
    h.GetBinContent (j : ℤ) = h.contents.getD j 0 := by
  rw [Hist1.GetBinContent, getBin_coe hj]

/-- The histogram state after one iteration of the `rebinned` fill
loop. -/
def rebinStep (h nh : Hist1) (x : ℕ) : Hist1 :=
  { nh with
    contents := nh.contents.set (nh.FindBin (h.GetBinCenter x))
      (nh.contents.getD (nh.FindBin (h.GetBinCenter x)) 0 +
        h.contents.getD (h.getBin (x : ℤ)) 0)
    sumw2 := nh.sumw2.set (nh.FindBin (h.GetBinCenter x))
      (nh.sumw2.getD (nh.FindBin (h.GetBinCenter x)) 0 +
        h.sumw2.getD (h.getBin (x : ℤ)) 0) }

theorem rebinFill_cons (h nh : Hist1) (x : ℕ) (xs : List ℕ) :
    rebinFill h nh (x :: xs) = rebinFill h (rebinStep h nh x) xs := by
  have hnb : (0 : ℤ) ≤ (nh.FindBin (h.GetBinCenter x) : ℤ) ∧
      ((nh.FindBin (h.GetBinCenter x) : ℤ)) < (nh.sizeH : ℤ) :=
    ⟨by positivity, by exact_mod_cast FindBin_lt_sizeH nh _⟩
  rw [rebinFill]
  simp only [Hist1.SetBinContent1, if_pos hnb, Int.toNat_natCast,
    GetBinContent_coe nh _ (FindBin_lt_sizeH nh _)]
  rfl

theorem rebinStep_edges (h nh : Hist1) (x : ℕ) : (rebinStep h nh x).edges = nh.edges :=
  rfl

theorem rebinFill_edges (h : Hist1) :
    ∀ (xs : List ℕ) (nh : Hist1), (rebinFill h nh xs).edges = nh.edges := by
  intro xs
  induction xs with
  | nil => intro nh; rfl
  | cons x xs ih =>
    intro nh
    rw [rebinFill_cons, ih]
    rfl

theorem rebinFill_getD (h : Hist1) :
    ∀ (xs : List ℕ) (nh : Hist1) (k : ℕ), nh.contents.length = nh.sizeH →
      (rebinFill h nh xs).contents.getD k 0 =
        nh.contents.getD k 0 +
          ((xs.filter (fun x => nh.FindBin (h.GetBinCenter x) = k)).map
            (fun x : ℕ => h.contents.getD (h.getBin (x : ℤ)) 0)).sum := by
  intro xs
  induction xs with
  | nil => intro nh k hlen; simp [rebinFill]
  | cons x xs ih =>
    intro nh k hlen
    rw [rebinFill_cons]
    have hnb : nh.FindBin (h.GetBinCenter x) < nh.contents.length := by
      rw [hlen]
      exact FindBin_lt_sizeH nh _
    have hFB : Hist1.FindBin (rebinStep h nh x) = Hist1.FindBin nh := by
      funext y
      rw [Hist1.FindBin, Hist1.FindBin, rebinStep_edges]
    have hrec := ih (rebinStep h nh x) k (by
      show (nh.contents.set _ _).length = _
      rw [List.length_set]
      exact hlen)
    rw [hrec, hFB]
    by_cases hk : nh.FindBin (h.GetBinCenter x) = k
    · have hget : (rebinStep h nh x).contents.getD k 0 =
          nh.contents.getD k 0 + h.contents.getD (h.getBin (x : ℤ)) 0 := by
        show (nh.contents.set _ _).getD k 0 = _
        rw [hk] at hnb ⊢
        exact getD_set_self hnb _
      rw [hget, List.filter_cons_of_pos (by simpa using hk), List.map_cons,
        List.sum_cons]
      ring
    · have hget : (rebinStep h nh x).contents.getD k 0 = nh.contents.getD k 0 := by
        show (nh.contents.set _ _).getD k 0 = _
        exact getD_set_ne hk _
      rw [hget, List.filter_cons_of_neg (by simpa using hk)]

/-- C4.  With explicit new edges, `rebinned` returns a fresh histogram on
those edges in which the content of each in-range bin of the original is
added to the bin of the new axis containing the old bin's centre
(`FindBin` of the centre), with the entry count preserved and the receiver
untouched; an axis at or past the dimensionality raises `ValueError`, and
a `bins` argument that is neither an integer, a tuple nor an iterable
raises `TypeError`. -/
theorem C4_rebinned (h : Hist1) :
    (∀ (l : List ℚ) (nh : Hist1), rebinned h (.iter l) 0 = .ok (.hist nh) →
      nh.edges = l ∧ nh.entries = h.entries ∧
      ∀ k, nh.contents.getD k 0 =
        (((List.range' 1 h.nbins).filter
            (fun x => nh.FindBin (h.GetBinCenter x) = k)).map
          (fun x : ℕ => h.contents.getD x 0)).sum) ∧
    (∀ (bins : BinsArg) (axis : ℤ), 1 ≤ axis →
      rebinned h bins axis = .error .valueError) ∧
    (rebinned h .other 0 = .error .typeError) ∧
    (∀ (s : Store) (r : ℕ) (l : List ℚ) (nh : Hist1),
      rebinned (Store.getH s r) (.iter l) 0 = .ok (.hist nh) →
      rebinned_store s r (.iter l) 0 = .ok (s ++ [nh], some s.length) ∧
      ∀ q, q < s.length → Store.getH (s ++ [nh]) q = Store.getH s q) := by
  refine ⟨?_, ?_, ?_, ?_⟩
  · intro l nh hok
    rw [rebinned, if_neg (by omega)] at hok
    rw [except_bind_ok] at hok
    obtain ⟨nh0, hnh0, hok⟩ := hok
    simp only [Except.ok.injEq, RebinResult.hist.injEq] at hok
    rw [new_binning_template, if_neg (by omega), if_pos rfl, hist1_new,
      except_bind_ok] at hnh0
    obtain ⟨ps, _, hnh0⟩ := hnh0
    simp only [Except.ok.injEq] at hnh0
    subst hnh0
    have hfe : (rebinFill h (hist1_template l) (List.range' 1 h.nbins)).edges = l :=
      rebinFill_edges h _ (hist1_template l)
    have hedges : nh.edges = l := by rw [← hok]; exact hfe
    have hFB : Hist1.FindBin nh = Hist1.FindBin (hist1_template l) := by
      funext y
      rw [Hist1.FindBin, Hist1.FindBin, hedges]
      rfl
    refine ⟨hedges, by rw [← hok], fun k => ?_⟩
    have hlen : (hist1_template l).contents.length = (hist1_template l).sizeH := by
      simp [hist1_template, Hist1.sizeH, Hist1.nbins]
    have hget := rebinFill_getD h (List.range' 1 h.nbins) (hist1_template l) k hlen
    have hz : (hist1_template l).contents.getD k 0 = 0 := by
      simp [hist1_template, List.getD_eq_getElem?_getD, List.getElem?_replicate]
      split <;> rfl
    have hcontents : nh.contents =
        (rebinFill h (hist1_template l) (List.range' 1 h.nbins)).contents := by
      rw [← hok]
    rw [hcontents, hget, hz, zero_add, hFB]
    refine congrArg List.sum (List.map_congr_left fun x hx => ?_)
    have hxr : x ∈ List.range' 1 h.nbins := List.mem_of_mem_filter hx
    have hxb : x < h.sizeH := by
      rcases List.mem_range'.mp hxr with ⟨i, hi, rfl⟩
      rw [Hist1.sizeH]
      omega
    rw [getBin_coe hxb]
  · intro bins axis haxis
    rw [rebinned.eq_def, if_pos haxis]
  · rw [rebinned.eq_def, if_neg (by omega)]
  · intro s r l nh hok
    constructor
    · rw [rebinned_store, hok]
      rfl
    · intro q hq
      exact getH_append hq

set_option maxHeartbeats 1000000 in
/-- Witness for C4: rebinning the concrete three-bin histogram onto the
edges `[0, 2, 3]`. -/
theorem C4_witness :
    histThreeRebinned.edges = [0, 2, 3] ∧
    histThreeRebinned.entries = histThree.entries := by
  have hok : rebinned histThree (.iter [0, 2, 3]) 0 = .ok (.hist histThreeRebinned) := by
    norm_num [rebinned, new_binning_template, hist1_new, parse_args, parseAxes,
      isSortedAsc, hasDup, List.dedup, List.pwFilter, rebinFill, histThree,
      histThreeRebinned, Hist1.nbins, Hist1.sizeH, Hist1.FindBin,
      Hist1.GetBinCenter, Hist1.GetBinContent, Hist1.SetBinContent1,
      Hist1.getBin, List.range', List.countP, List.countP.go, List.replicate,
      hist1_template, Bind.bind, Except.bind]
    simp
    try norm_num
  exact ⟨((C4_rebinned histThree).1 [0, 2, 3] histThreeRebinned hok).1,
    ((C4_rebinned histThree).1 [0, 2, 3] histThreeRebinned hok).2.1⟩

/-! ## Claim C2: the `ValueError` conditions of `merge_bins` -/

theorem isSortedStrict_iff_chain :
    ∀ {l : List ℚ}, isSortedStrict l = true ↔ l.Chain' (· < ·)
  | [] => by simp [isSortedStrict]
  | [a] => by simp [isSortedStrict]
  | a :: b :: l => by
    rw [isSortedStrict, Bool.and_eq_true, decide_eq_true_eq, List.chain'_cons,
      isSortedStrict_iff_chain]

theorem dedup_length_eq_iff_nat {l : List ℕ} : l.dedup.length = l.length ↔ l.Nodup := by
  constructor
  · intro hlen
    have := (List.dedup_sublist l).eq_of_length hlen
    rw [← this]
    exact List.nodup_dedup l
  · intro hnd
    rw [List.dedup_eq_self.mpr hnd]

theorem makeWindows_cases (n : ℕ) :
    ∀ rs : List (List ℤ),
      ((∃ w ∈ rs, badRangeB w = true) → makeWindows n rs = .error .valueError) ∧
      (∀ e, makeWindows n rs = .error e →
        e = .valueError ∧ ∃ w ∈ rs, badRangeB w = true) := by
  intro rs
  induction rs with
  | nil =>
    constructor
    · rintro ⟨w, hw, _⟩
      cases hw
    · intro e he
      cases he
  | cons w ws ih =>
    have hbadhead : badRangeB w = true → makeWindows n (w :: ws) = .error .valueError := by
      intro hbad
      match w, hbad with
      | [], _ => rfl
      | [l], _ => rfl
      | l :: r :: x :: t, _ => rfl
      | [l, r], hbad =>
        rw [badRangeB] at hbad
        simp only [Bool.or_eq_true, Bool.and_eq_true, decide_eq_true_eq] at hbad
        rw [makeWindows]
        rcases hbad with hbad | hbad
        · rw [if_pos hbad]
        · by_cases hlr : l = r
          · rw [if_pos hlr]
          · rw [if_neg hlr, if_pos hbad]
    constructor
    · rintro ⟨w', hw', hbad⟩
      rcases List.mem_cons.mp hw' with rfl | hmem
      · exact hbadhead hbad
      · by_cases hb : badRangeB w = true
        · exact hbadhead hb
        · match w, hb with
          | [l, r], hb =>
            rw [badRangeB] at hb
            simp only [Bool.or_eq_true, Bool.and_eq_true, decide_eq_true_eq,
              not_or, not_and] at hb
            rw [makeWindows, if_neg hb.1, if_neg (by
              intro hc
              exact hb.2 hc.1 hc.2)]
            rw [ih.1 ⟨w', hmem, hbad⟩]
            rfl
          | [], hb => simp [badRangeB] at hb
          | [l], hb => simp [badRangeB] at hb
          | l :: r :: x :: t, hb => simp [badRangeB] at hb
    · intro e he
      match w with
      | [] =>
        rw [show makeWindows n ([] :: ws) = .error .valueError from rfl] at he
        cases he
        exact ⟨rfl, [], List.mem_cons_self _ _, rfl⟩
      | [l] =>
        rw [show makeWindows n ([l] :: ws) = .error .valueError from rfl] at he
        cases he
        exact ⟨rfl, [l], List.mem_cons_self _ _, rfl⟩
      | l :: r :: x :: t =>
        rw [show makeWindows n ((l :: r :: x :: t) :: ws) = .error .valueError from
          rfl] at he
        cases he
        exact ⟨rfl, l :: r :: x :: t, List.mem_cons_self _ _, rfl⟩
      | [l, r] =>
        rw [makeWindows] at he
        by_cases h1 : l = r
        · rw [if_pos h1] at he
          cases he
          exact ⟨rfl, [l, r], List.mem_cons_self _ _, by
            simp [badRangeB, h1]⟩
        · rw [if_neg h1] at he
          by_cases h2 : l < 0 ∧ 0 ≤ r
          · rw [if_pos h2] at he
            cases he
            exact ⟨rfl, [l, r], List.mem_cons_self _ _, by
              simp [badRangeB, h1, h2.1, h2.2]⟩
          · rw [if_neg h2] at he
            rw [except_bind_error] at he
            rcases he with he | ⟨rest, _, he⟩
            · obtain ⟨he1, w', hw', hbad⟩ := ih.2 e he
              exact ⟨he1, w', List.mem_cons_of_mem _ hw', hbad⟩
            · split at he <;> cases he

theorem makeWindows_shape (n : ℕ) :
    ∀ (rs : List (List ℤ)) (ws : List (List ℕ)), makeWindows n rs = .ok ws →
      ∀ w ∈ ws, ∃ s len, 0 < len ∧ w = List.range' s len := by
  intro rs
  induction rs with
  | nil =>
    intro ws hok w hw
    rw [makeWindows] at hok
    cases hok
    cases hw
  | cons r rs ih =>
    intro ws hok w hw
    match r with
    | [] => cases hok
    | [l] => cases hok
    | l :: r' :: x :: t => cases hok
    | [l, r'] =>
      rw [makeWindows] at hok
      split at hok
      · cases hok
      split at hok
      · cases hok
      rw [except_bind_ok] at hok
      obtain ⟨rest, hrest, hok⟩ := hok
      by_cases hie :
          (sliceIndices l (if r' = -1 then (n : ℤ) else r' + 1) n).isEmpty = true
      · rw [if_pos hie] at hok
        cases hok
        exact ih _ hrest w hw
      · rw [if_neg hie] at hok
        cases hok
        rcases List.mem_cons.mp hw with rfl | hmem
        · refine ⟨_, _, ?_, rfl⟩
          by_cases hz : 0 < sliceClamp (if r' = -1 then (n : ℤ) else r' + 1) n -
              sliceClamp l n
          · exact hz
          · exact absurd (by
              show (List.range' (sliceClamp l n)
                (sliceClamp (if r' = -1 then (n : ℤ) else r' + 1) n -
                  sliceClamp l n)).isEmpty = true
              rw [Nat.eq_zero_of_not_pos hz]
              rfl) hie
        · exact ih _ hrest w hmem

theorem mergeNewEdges_sublist (edges : List ℚ) (mapping : List (ℕ × ℤ))
    (leftKeys : List ℕ) : (mergeNewEdges edges mapping leftKeys).Sublist edges := by
  rw [mergeNewEdges]
  have h1 := (@List.filter_sublist (ℕ × ℚ)
    (fun p => keepEdge mapping leftKeys (edges.length - 1) p.1) edges.enum).map
    Prod.snd
  rw [List.enum_map_snd] at h1
  exact h1

theorem hist1_new_ok_of_sorted {edges : List ℚ} (hs : edges.Chain' (· < ·)) :
    hist1_new edges = .ok (hist1_template edges) := by
  have hsorted : isSortedAsc edges = true :=
    isSortedAsc_iff_chain.mpr (hs.imp fun a b => le_of_lt)
  have hnodup : edges.Nodup :=
    (List.chain'_iff_pairwise.mp hs).imp fun hab => ne_of_lt hab
  have hdup : hasDup edges = false := by
    rw [hasDup, decide_eq_false_iff_not, not_not]
    exact dedup_length_eq_iff.mpr hnodup
  rw [hist1_new, parse_args]
  simp [parseAxes, hsorted, hdup, Bind.bind, Except.bind]

theorem mergeFill_no_valueError (h : Hist1) (tr : ℕ → ℤ) :
    ∀ (l : List ℕ) (nh : Hist1), mergeFill h tr nh l ≠ .error .valueError := by
  intro l
  induction l with
  | nil => intro nh hc; cases hc
  | cons i is ih =>
    intro nh hc
    rw [mergeFill] at hc
    rw [except_bind_error] at hc
    rcases hc with hc | ⟨w2old, _, hc⟩
    · rw [Hist1.get_sum_w2] at hc
      split at hc <;> cases hc
    · rw [except_bind_error] at hc
      rcases hc with hc | ⟨w2new, _, hc⟩
      · rw [Hist1.get_sum_w2] at hc
        split at hc <;> cases hc
      · rw [except_bind_error] at hc
        rcases hc with hc | ⟨nh2, _, hc⟩
        · rw [Hist1.set_sum_w2] at hc
          split at hc <;> cases hc
        · exact ih nh2 hc

theorem merge_bins_axis0 (h : Hist1) (bin_ranges : List (List ℤ)) :
    merge_bins h bin_ranges 0 =
      (makeWindows h.sizeH bin_ranges >>= fun windows =>
        if windows.isEmpty then .ok h
        else if 1 < windows.length ∧ windowsOverlap windows then .error .valueError
        else
          let ws := windows.mergeSort lexLe
          let mlk := buildMapping ws 0
          let nedges := mergeNewEdges h.edges mlk.1 mlk.2.1
          hist1_new nedges >>= fun nh0 =>
            mergeFill h (mergeTranslate mlk.1 h nh0) nh0 (List.range h.sizeH) >>=
              fun nh => .ok { nh with entries := h.entries }) := rfl

/-- C2, amended.  For a well-formed 1-dimensional histogram, `merge_bins`
raises `ValueError` exactly when the axis is outside `{0, …, ndim-1}`
(also when it is negative, which the claim's enumeration missed), a bin
range is not a pair of distinct indices or mixes a negative left with a
non-negative right, or two resolved merge windows share a bin index; and
when every range resolves to an empty window it merges nothing and
returns a clone. -/
theorem C2_merge_bins_valueerror (h : Hist1) (bin_ranges : List (List ℤ))
    (axis : ℤ) (hwf : h.Wf) :
    (merge_bins h bin_ranges axis = .error .valueError ↔
      axis ≠ 0 ∨ (∃ w ∈ bin_ranges, badRangeB w = true) ∨
      (∃ ws, makeWindows h.sizeH bin_ranges = .ok ws ∧ ¬ ws.flatten.Nodup)) ∧
    (makeWindows h.sizeH bin_ranges = .ok [] →
      merge_bins h bin_ranges 0 = .ok h) := by
  constructor
  · by_cases haxis : axis = 0
    · subst haxis
      rw [merge_bins_axis0]
      simp only [ne_eq, not_true_eq_false, false_or]
      cases hmk : makeWindows h.sizeH bin_ranges with
      | error e =>
        obtain ⟨rfl, hbad⟩ := (makeWindows_cases h.sizeH bin_ranges).2 e hmk
        simp only [Bind.bind, Except.bind]
        constructor
        · intro _
          exact Or.inl hbad
        · intro _
          trivial
      | ok ws =>
        have hnobad : ¬ ∃ w ∈ bin_ranges, badRangeB w = true := by
          intro hbad
          rw [(makeWindows_cases h.sizeH bin_ranges).1 hbad] at hmk
          cases hmk
        simp only [Bind.bind, Except.bind]
        cases hws : ws.isEmpty
        · rw [if_neg (by simp [hws])]
          by_cases hover : 1 < ws.length ∧ windowsOverlap ws = true
          · rw [if_pos hover]
            constructor
            · intro _
              refine Or.inr ⟨ws, rfl, ?_⟩
              intro hnd
              have := dedup_length_eq_iff_nat.mpr hnd
              rw [windowsOverlap, decide_eq_true_eq] at hover
              exact hover.2 this
            · intro _
              rfl
          · rw [if_neg hover]
            have hnd : ws.flatten.Nodup := by
              by_cases hlen : 1 < ws.length
              · by_contra hnd
                refine hover ⟨hlen, ?_⟩
                rw [windowsOverlap, decide_eq_true_eq]
                intro heq
                exact hnd (dedup_length_eq_iff_nat.mp heq)
              · match ws, hws, hlen, hmk with
                | [], hws, _, _ => cases hws
                | [w], _, _, hmk =>
                  obtain ⟨s, len, hpos, rfl⟩ :=
                    makeWindows_shape h.sizeH bin_ranges [w] hmk w
                      (List.mem_cons_self _ _)
                  simpa using List.nodup_range' s len
                | w1 :: w2 :: t, _, hlen, _ => exact absurd (by simp) hlen
            have hedges : (mergeNewEdges h.edges (buildMapping (ws.mergeSort lexLe) 0).1
                (buildMapping (ws.mergeSort lexLe) 0).2.1).Chain' (· < ·) :=
              (isSortedStrict_iff_chain.mp hwf.2.1).sublist
                (mergeNewEdges_sublist h.edges _ _)
            rw [hist1_new_ok_of_sorted hedges]
            simp only [Bind.bind, Except.bind]
            constructor
            · intro hc
              cases hfill : mergeFill h
                  (mergeTranslate (buildMapping (ws.mergeSort lexLe) 0).1 h _) _
                  (List.range h.sizeH) with
              | error e =>
                rw [hfill] at hc
                cases hc
                exact absurd hfill (mergeFill_no_valueError h _ _ _)
              | ok nhf =>
                rw [hfill] at hc
                cases hc
            · rintro (⟨w, hw, hbad⟩ | ⟨ws', hws', hnd'⟩)
              · exact absurd ⟨w, hw, hbad⟩ hnobad
              · cases hws'
                exact absurd hnd hnd'
        · rw [if_pos (by simp [hws])]
          have hwsnil : ws = [] := List.isEmpty_iff.mp hws
          subst hwsnil
          constructor
          · intro hc
            cases hc
          · rintro (⟨w, hw, hbad⟩ | ⟨ws', hws', hnd'⟩)
            · exact absurd ⟨w, hw, hbad⟩ hnobad
            · cases hws'
              exact absurd List.nodup_nil hnd'
    · constructor
      · intro _
        exact Or.inl haxis
      · intro _
        rw [merge_bins]
        by_cases hpos : 0 < axis
        · rw [if_pos hpos]
        · rw [if_neg hpos]
          have h1 : axis ≠ 1 := by omega
          have h2 : axis ≠ 2 := by omega
          simp [Hist1.nbinsAxis, haxis, h1, h2, Bind.bind, Except.bind]
  · intro hmk
    rw [merge_bins_axis0, hmk]
    rfl

/-- C2, counterexample to the claim as stated: the negative axis `-1` does
not exceed `ndim - 1 = 0`, and the single bin range `(0, 1)` satisfies
none of the enumerated invalidity conditions, yet `merge_bins` raises
`ValueError` (from `nbins(axis)`). -/
theorem C2_counterexample :
    merge_bins histTwo [[0, 1]] (-1) = .error .valueError ∧
    ¬ ((-1 : ℤ) > 1 - 1) ∧
    (∀ w ∈ [[(0 : ℤ), 1]], badRangeB w = false) ∧
    (∃ ws, makeWindows histTwo.sizeH [[(0 : ℤ), 1]] = .ok ws ∧ ws.flatten.Nodup) := by
  refine ⟨by decide, by decide, by decide, [[0, 1]], by decide, by decide⟩

/-- Witness for C2: with axis 0 on a well-formed histogram, a bad range
raises `ValueError`, and ranges resolving to nothing yield a clone. -/
theorem C2_witness :
    merge_bins histTwo [[2, 2]] 0 = .error .valueError ∧
    merge_bins histTwo [[3, 1]] 0 = .ok histTwo := by
  constructor
  · exact (C2_merge_bins_valueerror histTwo [[2, 2]] 0 (by decide)).1.mpr
      (Or.inr (Or.inl ⟨[2, 2], List.mem_cons_self _ _, by decide⟩))
  · exact (C2_merge_bins_valueerror histTwo [[3, 1]] 0 (by decide)).2 (by decide)

/-! ## Claim C1: what a successful `merge_bins` computes -/

theorem getBin_lt (h : Hist1) (i : ℤ) : h.getBin i < h.sizeH := by
  rw [Hist1.getBin, Hist1.sizeH]
  split
  · omega
  split
  · omega
  · rename_i h1 h2
    omega

theorem mergeStep_edges (h : Hist1) (tr : ℕ → ℤ) (nh : Hist1) (i : ℕ) :
    (mergeStep h tr nh i).edges = nh.edges := rfl

theorem mergeStep_contents (h : Hist1) (tr : ℕ → ℤ) (nh : Hist1) (i : ℕ) :
    (mergeStep h tr nh i).contents =
      nh.contents.set (nh.getBin (tr i))
        (nh.contents.getD (nh.getBin (tr i)) 0 + h.GetBinContent (i : ℤ)) := rfl

theorem mergeStep_getBin (h : Hist1) (tr : ℕ → ℤ) (nh : Hist1) (i : ℕ) :
    Hist1.getBin (mergeStep h tr nh i) = Hist1.getBin nh := by
  funext j
  rw [Hist1.getBin, Hist1.getBin]
  rfl

theorem bind_ok_eq {α β : Type} (a : α) (f : α → Except PyErr β) :
    (Except.ok a >>= f : Except PyErr β) = f a := rfl

theorem bind_error_eq {α β : Type} (e : PyErr) (f : α → Except PyErr β) :
    (Except.error e >>= f : Except PyErr β) = .error e := rfl

theorem mergeFill_cons (h : Hist1) (tr : ℕ → ℤ) (nh : Hist1) (i : ℕ) (l : List ℕ) :
    mergeFill h tr nh (i :: l) =
      if 0 ≤ (i : ℤ) ∧ (i : ℤ) < (h.sizeH : ℤ) then
        if 0 ≤ tr i ∧ tr i < (nh.sizeH : ℤ) then
          mergeFill h tr (mergeStep h tr nh i) l
        else .error .assertionError
      else .error .assertionError := by
  have hsz : (nh.SetBinContent3 (tr i)
      (nh.GetBinContent (tr i) + h.GetBinContent (i : ℤ))).sizeH = nh.sizeH := rfl
  by_cases h1 : 0 ≤ (i : ℤ) ∧ (i : ℤ) < (h.sizeH : ℤ)
  · have e1 : h.get_sum_w2 (i : ℤ) = .ok (h.sumw2.getD ((i : ℤ)).toNat 0) := by
      rw [Hist1.get_sum_w2, if_pos h1]
    by_cases h2 : 0 ≤ tr i ∧ tr i < (nh.sizeH : ℤ)
    · have e2 : (nh.SetBinContent3 (tr i)
          (nh.GetBinContent (tr i) + h.GetBinContent (i : ℤ))).get_sum_w2 (tr i) =
          .ok ((nh.SetBinContent3 (tr i)
            (nh.GetBinContent (tr i) + h.GetBinContent (i : ℤ))).sumw2.getD
              (tr i).toNat 0) := by
        rw [Hist1.get_sum_w2, hsz, if_pos h2]
      have e3 : (nh.SetBinContent3 (tr i)
          (nh.GetBinContent (tr i) + h.GetBinContent (i : ℤ))).set_sum_w2
            (h.sumw2.getD ((i : ℤ)).toNat 0 +
              (nh.SetBinContent3 (tr i)
                (nh.GetBinContent (tr i) + h.GetBinContent (i : ℤ))).sumw2.getD
                  (tr i).toNat 0) (tr i) = .ok (mergeStep h tr nh i) := by
        rw [Hist1.set_sum_w2, hsz, if_pos h2]
        rfl
      rw [if_pos h1, if_pos h2]
      simp only [mergeFill, e1, bind_ok_eq, e2, e3]
    · have e2 : (nh.SetBinContent3 (tr i)
          (nh.GetBinContent (tr i) + h.GetBinContent (i : ℤ))).get_sum_w2 (tr i) =
          .error .assertionError := by
        rw [Hist1.get_sum_w2, hsz, if_neg h2]
      rw [if_pos h1, if_neg h2]
      simp only [mergeFill, e1, bind_ok_eq, e2, bind_error_eq]
  · have e1 : h.get_sum_w2 (i : ℤ) = .error .assertionError := by
      rw [Hist1.get_sum_w2, if_neg h1]
    rw [if_neg h1]
    simp only [mergeFill, e1, bind_error_eq]

theorem mergeFill_ok_edges (h : Hist1) (tr : ℕ → ℤ) :
    ∀ (l : List ℕ) (nh nh' : Hist1), mergeFill h tr nh l = .ok nh' →
      nh'.edges = nh.edges ∧ nh'.contents.length = nh.contents.length := by
  intro l
  induction l with
  | nil =>
    intro nh nh' hok
    cases hok
    exact ⟨rfl, rfl⟩
  | cons i is ih =>
    intro nh nh' hok
    rw [mergeFill_cons] at hok
    split at hok
    · split at hok
      · obtain ⟨he, hl⟩ := ih _ _ hok
        refine ⟨by rw [he, mergeStep_edges], ?_⟩
        rw [hl, mergeStep_contents, List.length_set]
      · cases hok
    · cases hok

theorem mergeFill_ok_sum (h : Hist1) (tr : ℕ → ℤ) :
    ∀ (l : List ℕ) (nh nh' : Hist1), nh.contents.length = nh.sizeH →
      mergeFill h tr nh l = .ok nh' →
      nh'.contents.sum = nh.contents.sum +
        (l.map (fun i : ℕ => h.GetBinContent (i : ℤ))).sum := by
  intro l
  induction l with
  | nil =>
    intro nh nh' hlen hok
    cases hok
    simp
  | cons i is ih =>
    intro nh nh' hlen hok
    rw [mergeFill_cons] at hok
    split at hok
    · split at hok
      · have hlen2 : (mergeStep h tr nh i).contents.length = (mergeStep h tr nh i).sizeH := by
          rw [mergeStep_contents, List.length_set, hlen]
          rfl
        have hsum := ih _ _ hlen2 hok
        rw [hsum, mergeStep_contents,
          sum_set_add _ _ _ (by rw [hlen]; exact getBin_lt nh (tr i)),
          List.map_cons, List.sum_cons]
        ring
      · cases hok
    · cases hok

theorem mergeFill_ok_getD (h : Hist1) (tr : ℕ → ℤ) :
    ∀ (l : List ℕ) (nh nh' : Hist1), nh.contents.length = nh.sizeH →
      mergeFill h tr nh l = .ok nh' → ∀ k,
      nh'.contents.getD k 0 = nh.contents.getD k 0 +
        ((l.filter (fun i => nh.getBin (tr i) = k)).map
          (fun i : ℕ => h.GetBinContent (i : ℤ))).sum := by
  intro l
  induction l with
  | nil =>
    intro nh nh' hlen hok k
    cases hok
    simp
  | cons i is ih =>
    intro nh nh' hlen hok k
    rw [mergeFill_cons] at hok
    split at hok
    · split at hok
      · have hlen2 : (mergeStep h tr nh i).contents.length = (mergeStep h tr nh i).sizeH := by
          rw [mergeStep_contents, List.length_set, hlen]
          rfl
        have hrec := ih _ _ hlen2 hok k
        rw [hrec, mergeStep_getBin]
        have hb : nh.getBin (tr i) < nh.contents.length := by
          rw [hlen]
          exact getBin_lt nh (tr i)
        by_cases hk : nh.getBin (tr i) = k
        · subst hk
          have hget : (mergeStep h tr nh i).contents.getD (nh.getBin (tr i)) 0 =
              nh.contents.getD (nh.getBin (tr i)) 0 + h.GetBinContent (i : ℤ) := by
            rw [mergeStep_contents]
            exact getD_set_self hb _
          rw [hget, List.filter_cons_of_pos (by simp), List.map_cons,
            List.sum_cons]
          ring
        · have hget : (mergeStep h tr nh i).contents.getD k 0 =
              nh.contents.getD k 0 := by
            rw [mergeStep_contents]
            exact getD_set_ne hk _
          rw [hget, List.filter_cons_of_neg (by simpa using hk)]
      · cases hok
    · cases hok

theorem lookup_append_left {l₁ l₂ : List (ℕ × ℤ)} {i : ℕ} {v : ℤ}
    (hl : l₁.lookup i = some v) : (l₁ ++ l₂).lookup i = some v := by
  induction l₁ with
  | nil => cases hl
  | cons p l ih =>
    rw [List.cons_append, List.lookup] at *
    split at hl
    · exact hl
    · exact ih hl

theorem lookup_append_none {l₁ l₂ : List (ℕ × ℤ)} {i : ℕ}
    (hl : l₁.lookup i = none) : (l₁ ++ l₂).lookup i = l₂.lookup i := by
  induction l₁ with
  | nil => rfl
  | cons p l ih =>
    rw [List.cons_append, List.lookup] at *
    split at hl
    · cases hl
    · exact ih hl

theorem lookup_map_mem {w : List ℕ} {i : ℕ} {v : ℤ} (hi : i ∈ w) :
    (w.map (fun j => (j, v))).lookup i = some v := by
  induction w with
  | nil => cases hi
  | cons j w ih =>
    rw [List.map_cons, List.lookup]
    by_cases hij : i = j
    · have hb : (i == j) = true := beq_iff_eq.mpr hij
      rw [hb]
    · have hb : (i == j) = false := by
        simp [hij]
      rw [hb]
      exact ih (by
        rcases List.mem_cons.mp hi with rfl | hmem
        · exact absurd rfl hij
        · exact hmem)

theorem lookup_map_not_mem {w : List ℕ} {i : ℕ} {v : ℤ} (hi : i ∉ w) :
    (w.map (fun j => (j, v))).lookup i = none := by
  induction w with
  | nil => rfl
  | cons j w ih =>
    rw [List.map_cons, List.lookup]
    have hb : (i == j) = false := by
      simp only [beq_eq_false_iff_ne, ne_eq]
      intro hc
      exact hi (hc ▸ List.mem_cons_self _ _)
    rw [hb]
    exact ih (fun hmem => hi (List.mem_cons_of_mem _ hmem))

theorem buildMapping_window_const :
    ∀ (ws : List (List ℕ)) (off : ℤ), ws.flatten.Nodup →
      ∀ w ∈ ws, ∃ v, ∀ i ∈ w, ((buildMapping ws off).1).lookup i = some v := by
  intro ws
  induction ws with
  | nil =>
    intro off _ w hw
    cases hw
  | cons w0 ws ih =>
    intro off hnd w hw
    rw [List.flatten_cons] at hnd
    have hnd0 := (List.nodup_append.mp hnd).1
    have hndrest := (List.nodup_append.mp hnd).2.1
    have hdisj := (List.nodup_append.mp hnd).2.2
    rcases List.mem_cons.mp hw with rfl | hmem
    · refine ⟨if ((w.headD 0 : ℤ)) - off = 0 then 1 else (w.headD 0 : ℤ) - off,
        fun i hi => ?_⟩
      rw [buildMapping]
      exact lookup_append_left (lookup_map_mem hi)
    · obtain ⟨v, hv⟩ := ih (off + (w0.length : ℤ) - 1 -
        (if w0.headD 0 = 0 then 1 else 0)) hndrest w hmem
      refine ⟨v, fun i hi => ?_⟩
      rw [buildMapping]
      have hni : i ∉ w0 := fun hw0 =>
        hdisj hw0 (List.mem_flatten.mpr ⟨w, hmem, hi⟩)
      rw [lookup_append_none (lookup_map_not_mem hni)]
      exact hv i hi

theorem windows_nodup_of_check {n : ℕ} {rs : List (List ℤ)} {ws : List (List ℕ)}
    (hmk : makeWindows n rs = .ok ws)
    (hch : ¬ (1 < ws.length ∧ windowsOverlap ws = true)) : ws.flatten.Nodup := by
  match ws with
  | [] => exact List.nodup_nil
  | [w] =>
    obtain ⟨s, len, hpos, rfl⟩ :=
      makeWindows_shape n rs [w] hmk w (List.mem_cons_self _ _)
    simpa using List.nodup_range' s len
  | w1 :: w2 :: t =>
    by_contra hnd
    refine hch ⟨by simp, ?_⟩
    rw [windowsOverlap, decide_eq_true_eq]
    intro heq
    exact hnd (dedup_length_eq_iff_nat.mp heq)

theorem mergeTranslate_congr {mapping : List (ℕ × ℤ)} {h n₁ n₂ : Hist1}
    (he : n₁.edges = n₂.edges) :
    mergeTranslate mapping h n₁ = mergeTranslate mapping h n₂ := by
  funext i
  rw [mergeTranslate, mergeTranslate, Hist1.FindBin, Hist1.FindBin, he]

theorem getBin_congr {n₁ n₂ : Hist1} (he : n₁.edges = n₂.edges) :
    Hist1.getBin n₁ = Hist1.getBin n₂ := by
  funext i
  rw [Hist1.getBin, Hist1.getBin, Hist1.nbins, Hist1.nbins, he]

/-- C1, amended.  `merge_bins` can fail with `AssertionError` even on
valid, pairwise non-overlapping bin ranges (the counterexample below),
so the claim holds conditioned on a successful return: the result is a
fresh object and every existing object including the receiver is
untouched, the total content over all cells including underflow and
overflow is preserved, every index of a merged window is sent to the same
new cell by the constructed old-to-new mapping, and each new cell's
content is exactly the sum of the old cells routed to it. -/
theorem C1_merge_bins (s : Store) (r : ℕ) (bin_ranges : List (List ℤ))
    (s' : Store) (nr : ℕ) (hwf : (s.getH r).Wf)
    (hok : merge_bins_store s r bin_ranges 0 = .ok (s', nr)) :
    nr = s.length ∧ (∀ q, q < s.length → s'.getH q = s.getH q) ∧
    (s'.getH nr).contents.sum = (s.getH r).contents.sum ∧
    (∀ ws, makeWindows (s.getH r).sizeH bin_ranges = .ok ws →
      (∀ w ∈ ws.mergeSort lexLe, ∃ v, ∀ i ∈ w,
        (mergeMapping ws).lookup i = some v) ∧
      (ws ≠ [] → ∀ k, (s'.getH nr).contents.getD k 0 =
        (((List.range (s.getH r).sizeH).filter
            (fun i => mergeDest (s.getH r) ws i = k)).map
          (fun i : ℕ => (s.getH r).GetBinContent (i : ℤ))).sum)) := by
  rw [merge_bins_store, except_bind_ok] at hok
  obtain ⟨nh, hmb, hpair⟩ := hok
  have hp := Except.ok.inj hpair
  obtain ⟨rfl, rfl⟩ : s ++ [nh] = s' ∧ s.length = nr :=
    ⟨congrArg Prod.fst hp, congrArg Prod.snd hp⟩
  rw [merge_bins_axis0, except_bind_ok] at hmb
  obtain ⟨windows, hmkw, hif⟩ := hmb
  by_cases hie : windows.isEmpty = true
  · rw [if_pos hie] at hif
    obtain rfl : s.getH r = nh := Except.ok.inj hif
    have hwnil : windows = [] := by
      cases windows
      · rfl
      · cases hie
    subst hwnil
    refine ⟨rfl, fun q hq => getH_append hq, by rw [getH_append_last], ?_⟩
    intro ws hws
    rw [hmkw] at hws
    obtain rfl : ([] : List (List ℕ)) = ws := Except.ok.inj hws
    constructor
    · intro w hw
      simp at hw
    · intro hne
      exact absurd rfl hne
  · rw [if_neg hie] at hif
    by_cases hov : 1 < windows.length ∧ windowsOverlap windows = true
    · rw [if_pos hov] at hif
      cases hif
    · rw [if_neg hov] at hif
      simp only [] at hif
      rw [except_bind_ok] at hif
      obtain ⟨nh0, hnew, hif⟩ := hif
      rw [except_bind_ok] at hif
      obtain ⟨nhf, hfill, hlast⟩ := hif
      obtain rfl : { nhf with entries := (s.getH r).entries } = nh :=
        Except.ok.inj hlast
      rw [hist1_new, except_bind_ok] at hnew
      obtain ⟨pr, hpr, hnew⟩ := hnew
      obtain rfl : hist1_template (mergeNewEdges (s.getH r).edges
          (buildMapping (windows.mergeSort lexLe) 0).1
          (buildMapping (windows.mergeSort lexLe) 0).2.1) = nh0 :=
        Except.ok.inj hnew
      have hlen0 : ∀ E : List ℚ,
          (hist1_template E).contents.length = (hist1_template E).sizeH := by
        intro E
        simp [hist1_template, Hist1.sizeH, Hist1.nbins]
      have htsum : ∀ E : List ℚ, (hist1_template E).contents.sum = 0 := by
        intro E
        simp [hist1_template]
      have ht0 : ∀ (E : List ℚ) (k : ℕ),
          (hist1_template E).contents.getD k 0 = 0 := by
        intro E k
        rw [hist1_template]
        simp only [List.getD_eq_getElem?_getD, List.getElem?_replicate]
        split <;> rfl
      have hmap : ((List.range (s.getH r).sizeH).map
          (fun i : ℕ => (s.getH r).GetBinContent (i : ℤ))) =
          (s.getH r).contents := by
        have hlen : (s.getH r).contents.length = (s.getH r).sizeH := hwf.2.2.1
        rw [← hlen]
        conv_rhs => rw [← map_getD_range (s.getH r).contents]
        refine List.map_congr_left ?_
        intro i hi
        rw [List.mem_range] at hi
        rw [Hist1.GetBinContent, getBin_coe (hlen ▸ hi)]
      have hsum := mergeFill_ok_sum (s.getH r) _ _ _ nhf (hlen0 _) hfill
      refine ⟨rfl, fun q hq => getH_append hq, ?_, ?_⟩
      · rw [getH_append_last]
        show nhf.contents.sum = (s.getH r).contents.sum
        rw [hsum, htsum, zero_add, hmap]
      · intro ws hws
        rw [hmkw] at hws
        obtain rfl : windows = ws := Except.ok.inj hws
        have hnd : windows.flatten.Nodup := windows_nodup_of_check hmkw hov
        have hndsort : (windows.mergeSort lexLe).flatten.Nodup :=
          ((List.mergeSort_perm windows lexLe).flatten.nodup_iff).mpr hnd
        constructor
        · intro w hw
          obtain ⟨v, hv⟩ :=
            buildMapping_window_const (windows.mergeSort lexLe) 0 hndsort w hw
          refine ⟨v, fun i hi => ?_⟩
          rw [mergeMapping]
          exact hv i hi
        · intro _ k
          have hgetd :=
            mergeFill_ok_getD (s.getH r) _ _ _ nhf (hlen0 _) hfill k
          rw [getH_append_last]
          show nhf.contents.getD k 0 = _
          rw [hgetd, ht0, zero_add]
          rfl

/-- Counterexample to C1 as stated: on a well-formed two-bin histogram the
ranges `[(-5, -4), (1, 2), (3, -1)]` are valid (each resolves to a window,
axis 0 is within the dimension) and pairwise non-overlapping (the windows'
indices are all distinct), yet `merge_bins` does not return a histogram at
all: the singleton underflow window shifts the running offset so the
overflow window's new index lands outside the merged histogram, and the
`get_sum_w2` assertion fails. -/
theorem C1_counterexample :
    histTwo.Wf ∧
    (∃ ws, makeWindows histTwo.sizeH [[-5, -4], [1, 2], [3, -1]] = .ok ws ∧
      ws.flatten.Nodup) ∧
    merge_bins histTwo [[-5, -4], [1, 2], [3, -1]] 0 = .error .assertionError := by
  refine ⟨by decide, ⟨[[0], [1, 2], [3]], by decide, by decide⟩, ?_⟩
  rw [merge_bins_axis0]
  rw [show makeWindows histTwo.sizeH [[-5, -4], [1, 2], [3, -1]] =
    .ok [[0], [1, 2], [3]] from by decide]
  rw [bind_ok_eq]
  rw [show ([[0], [1, 2], [3]] : List (List ℕ)).mergeSort lexLe =
    [[0], [1, 2], [3]] from List.mergeSort_of_sorted (by decide)]
  decide

/-- Witness for C1: merging bins 1 and 2 of `histThree` succeeds, and the
theorem applies — the merged object is fresh, the receiver untouched, the
total content preserved, and the per-cell routing holds. -/
theorem C1_witness :
    1 = [histThree].length ∧
    (∀ q, q < [histThree].length →
      Store.getH [histThree, histThreeMerged] q = Store.getH [histThree] q) ∧
    (Store.getH [histThree, histThreeMerged] 1).contents.sum =
      histThree.contents.sum ∧
    (∀ ws, makeWindows histThree.sizeH [[1, 2]] = .ok ws →
      (∀ w ∈ ws.mergeSort lexLe, ∃ v, ∀ i ∈ w,
        (mergeMapping ws).lookup i = some v) ∧
      (ws ≠ [] → ∀ k,
        (Store.getH [histThree, histThreeMerged] 1).contents.getD k 0 =
          (((List.range histThree.sizeH).filter
              (fun i => mergeDest histThree ws i = k)).map
            (fun i : ℕ => histThree.GetBinContent (i : ℤ))).sum)) := by
  have hmb : merge_bins histThree [[1, 2]] 0 = .ok histThreeMerged := by
    rw [merge_bins_axis0]
    rw [show makeWindows histThree.sizeH [[1, 2]] = .ok [[1, 2]] from by decide]
    rw [bind_ok_eq]
    have h1 : ¬ (([[1, 2]] : List (List ℕ)).isEmpty = true) := by decide
    have h2 : ¬ (1 < ([[1, 2]] : List (List ℕ)).length ∧
        windowsOverlap [[1, 2]] = true) := by decide
    rw [if_neg h1, if_neg h2]
    simp only []
    rw [show ([[1, 2]] : List (List ℕ)).mergeSort lexLe = [[1, 2]] from
      List.mergeSort_of_sorted (by decide)]
    rw [show (buildMapping [[1, 2]] 0).1 = [(1, 1), (2, 1)] from by decide]
    rw [show (buildMapping [[1, 2]] 0).2.1 = [1] from by decide]
    rw [show mergeNewEdges histThree.edges [(1, 1), (2, 1)] [1] = [0, 2, 3] from by
      decide]
    rw [show hist1_new [0, 2, 3] =
      .ok (⟨[0, 2, 3], [0, 0, 0, 0], [0, 0, 0, 0], 0⟩ : Hist1) from by decide]
    rw [bind_ok_eq]
    rw [show List.range histThree.sizeH = [0, 1, 2, 3, 4] from by decide]
    norm_num [mergeFill, mergeTranslate, List.lookup, Hist1.FindBin,
      Hist1.GetBinCenter, Hist1.GetBinContent, Hist1.SetBinContent3, Hist1.getBin,
      Hist1.get_sum_w2, Hist1.set_sum_w2, Hist1.nbins, Hist1.sizeH, histThree,
      histThreeMerged, List.countP, List.countP.go, Bind.bind, Except.bind]
    simp
    try norm_num
  have hok : merge_bins_store [histThree] 0 [[1, 2]] 0 =
      .ok ([histThree, histThreeMerged], 1) := by
    rw [merge_bins_store, show Store.getH [histThree] 0 = histThree from rfl, hmb,
      bind_ok_eq]
    rfl
  exact C1_merge_bins [histThree] 0 [[1, 2]] [histThree, histThreeMerged] 1
    (by decide) hok

end Rootpy
